import Mathlib

/-!
# sinon-mongo: test doubles for the MongoDB client hierarchy

A shallow embedding of `src/lib/sinon-mongo.js`.  The library builds substitutes for a
connection handle, a database handle and a collection handle out of sinon stubs, and wraps
documents into the two result shapes of a query (a promise of an array, a readable stream).

JavaScript objects have identity, so the embedding is a small heap machine: a `Value` is a
primitive or a reference, the `Heap` is the list of allocated objects and a reference is an
index into it.  Every factory takes the heap and returns the value it built with the new heap.
-/

namespace SinonMongo

/-! ## Values and objects -/

/-- A JavaScript value: a primitive, a constructor function known by its name (`Array`,
`Object`, ...), or a reference to an object of the heap. Numbers are integers and NaN: only
being zero or NaN matters here. -/
inductive Value where
  | undefined
  | null
  | bool (b : Bool)
  | num (n : Int)
  | nan
  | str (s : String)
  | builtin (name : String)
  | ref (addr : Nat)
  deriving DecidableEq, Repr

/-- Own properties of an object, in insertion order. -/
abbrev Props := List (String × Value)

/-- Configured behaviour of a stub: nothing, `returns(v)` or `resolves(v)`. -/
inductive Behavior where
  | unset
  | returns (v : Value)
  | resolves (v : Value)
  deriving DecidableEq, Repr

/-- State of one sinon stub: its default behaviour, the behaviours configured through
`withArgs(name)` and the number of recorded calls. -/
structure Stub where
  defaultBehavior : Behavior
  fakes : List (String × Behavior)
  callCount : Nat
  deriving DecidableEq, Repr

/-- The two arrow functions the library creates: `() => v` and `() => Promise.resolve(v)`. -/
inductive Fn where
  | const (v : Value)
  | promiseResolve (v : Value)
  deriving DecidableEq, Repr

/-- State of a `Stream.Readable` in object mode: queued chunks, whether the end marker was
pushed, whether a push came after the end marker, and the properties assigned on it. -/
structure Readable where
  buffer : List Value
  ended : Bool
  errored : Bool
  props : Props
  deriving DecidableEq, Repr

/-- An object of the heap. `object cls props` is an ordinary object whose prototype belongs
to the constructor `cls` ("Object" for an object literal). `array ctor slots` is an array:
`ctor` is what its `constructor` property reads (`Array` for an array literal, something else
for an instance of a class that extends `Array`, an array of another realm, or an array with
a `constructor` property of its own) and `slots` are its indices in order, `none` being a
hole of a sparse array. -/
inductive HObj where
  | object (cls : String) (props : Props)
  | array (ctor : Value) (slots : List (Option Value))
  | stub (s : Stub)
  | fn (f : Fn)
  | promise (v : Value)
  | readable (r : Readable)
  deriving DecidableEq, Repr

/-- The heap: a reference `ref a` denotes the object at index `a`. -/
abbrev Heap := List HObj

/-- Errors a call can raise. -/
inductive Err where
  | notAFunction
  | propertyDoesNotExist (name : String)
  | typeError
  deriving DecidableEq, Repr

/-- What a consumer of a readable stream observes. -/
inductive Event where
  | data (payload : Value)
  | end_
  | error
  deriving DecidableEq, Repr

/-- Modelled from the spec: the three type contracts of the wrapped client library (package
`mongodb`, not part of this repository), "introspected only to enumerate method names": the
names of the methods found on the prototype of each class. -/
structure Mongo where
  MongoClient : List String
  Db : List String
  Collection : List String
  deriving DecidableEq, Repr

/-! ## The JavaScript runtime -/

/-- Allocation of a new object: it gets the next free address. -/
def alloc (h : Heap) (o : HObj) : Value × Heap := (.ref h.length, h ++ [o])

/-- Truthiness, as tested by `!result`. -/
def truthy : Value → Bool
  | .undefined => false
  | .null => false
  | .nan => false
  | .bool b => b
  | .num n => n != 0
  | .str s => s != ""
  | .builtin _ => true
  | .ref _ => true

/-- Read of an own property in a property list. -/
def Props.get : Props → String → Option Value
  | [], _ => none
  | (k, v) :: ps, name => if k = name then some v else Props.get ps name

/-- Assignment `o[name] = v` on a property list: replaces in place or appends. -/
def Props.set : Props → String → Value → Props
  | [], name, v => [(name, v)]
  | (k, w) :: ps, name, v => if k = name then (k, v) :: ps else (k, w) :: Props.set ps name v

/-- The call `Object.getOwnPropertyNames(o)` (and `Object.keys(o)`: all properties here are
enumerable). -/
def getOwnPropertyNames (ps : Props) : List String := ps.map Prod.fst

/-- The call `Object.assign(target, source)`; an undefined source copies nothing. -/
def assign (target : Props) (source : Option Props) : Props :=
  match source with
  | none => target
  | some src => src.foldl (fun t kv => t.set kv.1 kv.2) target

/-- The read `obj[name]`: `undefined` when the property is missing. -/
def getProp (h : Heap) (obj : Value) (name : String) : Value :=
  match obj with
  | .ref a =>
    match h[a]? with
    | some (.object _ ps) => (ps.get name).getD .undefined
    | some (.readable r) => (r.props.get name).getD .undefined
    | _ => .undefined
  | _ => .undefined

/-- The assignment `obj[name] = v`. -/
def setProp (h : Heap) (obj : Value) (name : String) (v : Value) : Heap :=
  match obj with
  | .ref a =>
    match h[a]? with
    | some (.object cls ps) => h.set a (.object cls (ps.set name v))
    | some (.readable r) => h.set a (.readable { r with props := r.props.set name v })
    | _ => h
  | _ => h

/-- The read `v.constructor` on an object of the heap. -/
def HObj.constructorOf : HObj → Value
  | .object cls ps => (ps.get "constructor").getD (.builtin cls)
  | .array ctor _ => ctor
  | .stub _ => .builtin "Function"
  | .fn _ => .builtin "Function"
  | .promise _ => .builtin "Promise"
  | .readable r => (r.props.get "constructor").getD (.builtin "Readable")

/-- The read `v.constructor`: a type error on `undefined` and `null`. -/
def constructorOf (h : Heap) : Value → Except Err Value
  | .undefined => .error .typeError
  | .null => .error .typeError
  | .bool _ => .ok (.builtin "Boolean")
  | .num _ => .ok (.builtin "Number")
  | .nan => .ok (.builtin "Number")
  | .str _ => .ok (.builtin "String")
  | .builtin _ => .ok (.builtin "Function")
  | .ref a =>
    match h[a]? with
    | some o => .ok o.constructorOf
    | none => .error .typeError

/-! ## sinon stubs -/

/-- A stub without behaviour, fakes or recorded calls. -/
def freshStub : HObj := .stub ⟨.unset, [], 0⟩

/-- Modelled from the spec: `sinon.stub()` of the host test framework (package `sinon`, not
part of this repository), "create a callable recorder": a new stub without behaviour. -/
def sinonStub (h : Heap) : Value × Heap := alloc h freshStub

/-- Update of the stub a value refers to (no effect on anything else). -/
def modifyStub (h : Heap) (f : Value) (g : Stub → Stub) : Heap :=
  match f with
  | .ref a =>
    match h[a]? with
    | some (.stub s) => h.set a (.stub (g s))
    | _ => h
  | _ => h

/-- Modelled from the spec: `stub.returns(v)` of sinon, "configure a default return value". -/
def returns (h : Heap) (f : Value) (v : Value) : Heap :=
  modifyStub h f (fun s => { s with defaultBehavior := .returns v })

/-- Modelled from the spec: `stub.resolves(v)` of sinon, "configure a default resolve
value". -/
def resolves (h : Heap) (f : Value) (v : Value) : Heap :=
  modifyStub h f (fun s => { s with defaultBehavior := .resolves v })

/-- Behaviour registered for a name by `withArgs`. -/
def lookupFake : List (String × Behavior) → String → Option Behavior
  | [], _ => none
  | (k, b) :: fs, name => if k = name then some b else lookupFake fs name

/-- Registration of a behaviour for a name: `withArgs(name)` gives back the fake that
already exists for these arguments, so a second configuration replaces the first. -/
def setFake : List (String × Behavior) → String → Behavior → List (String × Behavior)
  | [], name, b => [(name, b)]
  | (k, c) :: fs, name, b => if k = name then (k, b) :: fs else (k, c) :: setFake fs name b

/-- Modelled from the spec: `stub.withArgs(name).returns(v)` of sinon, "configure an
argument-specific override", for a string argument as the library passes. -/
def withArgsReturns (h : Heap) (f : Value) (name : String) (v : Value) : Heap :=
  modifyStub h f (fun s => { s with fakes := setFake s.fakes name (.returns v) })

/-- Behaviour a stub selects for an argument list: a `withArgs(name)` fake matches when the
first argument is deep-equal to `name`, which for a string is being that same string;
further arguments are ignored; without a matching fake the default behaviour applies. -/
def Stub.behaviorFor (s : Stub) : List Value → Behavior
  | .str name :: _ => (lookupFake s.fakes name).getD s.defaultBehavior
  | _ => s.defaultBehavior

/-- Execution of a behaviour: `resolves(v)` allocates a promise resolved with `v` (no object
here has a `then` method, so a promise never adopts the state of its value). -/
def runBehavior (h : Heap) : Behavior → Value × Heap
  | .unset => (.undefined, h)
  | .returns v => (v, h)
  | .resolves v => alloc h (.promise v)

/-- The call `f(...args)`: a stub records the call and runs the selected behaviour, an
arrow function runs its body, anything else is not callable. -/
def call (h : Heap) (f : Value) (args : List Value) : Except Err (Value × Heap) :=
  match f with
  | .ref a =>
    match h[a]? with
    | some (.stub s) =>
      .ok (runBehavior (h.set a (.stub { s with callCount := s.callCount + 1 })) (s.behaviorFor args))
    | some (.fn (.const v)) => .ok (v, h)
    | some (.fn (.promiseResolve v)) => .ok (alloc h (.promise v))
    | _ => .error .notAFunction
  | _ => .error .notAFunction

/-- The method call `obj.name(...args)`. -/
def callMethod (h : Heap) (obj : Value) (name : String) (args : List Value) :
    Except Err (Value × Heap) :=
  call h (getProp h obj name) args

/-- A run of method calls `obj.name(...)`, one per argument list, results dropped. -/
def callMethodMany (h : Heap) (obj : Value) (name : String) :
    List (List Value) → Except Err Heap
  | [] => .ok h
  | args :: rest =>
    match callMethod h obj name args with
    | .ok (_, h1) => callMethodMany h1 obj name rest
    | .error e => .error e

/-- Whether a value is a sinon stub (what `createStubInstance` tests on an override). -/
def isStub (h : Heap) : Value → Bool
  | .ref a =>
    match h[a]? with
    | some (.stub _) => true
    | _ => false
  | _ => false

/-- Modelled from the spec: `sinon.stub(object)`, which replaces every method found on the
prototype chain of the object by a new stub, "one call-recording substitute per method
name". -/
def stubMethods (obj : Value) : List String → Heap → Heap
  | [], h => h
  | name :: rest, h =>
    let (s, h1) := sinonStub h
    stubMethods obj rest (setProp h1 obj name s)

/-- Modelled from the spec: the override loop of `sinon.createStubInstance`: a property
that is not on the stubbed object is an error ("Cannot stub ... Property does not exist!"),
an override that is a stub replaces the member, any other value is installed as the return
value of the member already there. -/
def applyOverrides (methods : List String) (stubbedObject : Value) (overrides : Props) :
    List String → Heap → Except Err Heap
  | [], h => .ok h
  | propertyName :: rest, h =>
    if propertyName ∈ methods then
      let value := (overrides.get propertyName).getD .undefined
      if isStub h value then
        applyOverrides methods stubbedObject overrides rest
          (setProp h stubbedObject propertyName value)
      else
        applyOverrides methods stubbedObject overrides rest
          (returns h (getProp h stubbedObject propertyName) value)
    else .error (.propertyDoesNotExist propertyName)

/-- Modelled from the spec: `sinon.createStubInstance(constructor, overrides)` of the host
test framework (package `sinon`, not part of this repository): an object created from the
prototype of the class, all its methods stubbed, then the overrides applied. The class is
given by its name and the method names of its prototype. -/
def createStubInstance (cls : String) (methods : List String) (overrides : Option Props)
    (h : Heap) : Except Err (Value × Heap) :=
  let (stubbedObject, h1) := alloc h (.object cls [])
  let h2 := stubMethods stubbedObject methods h1
  match applyOverrides methods stubbedObject (overrides.getD [])
      (getOwnPropertyNames (overrides.getD [])) h2 with
  | .ok h3 => .ok (stubbedObject, h3)
  | .error e => .error e

/-! ## Readable streams -/

/-- Modelled from the spec: `new Stream.Readable(\x7bobjectMode: true\x7d)` of the host runtime (Node,
not part of this repository): an empty stream. -/
def newReadable : Readable := ⟨[], false, false, []⟩

/-- Modelled from the spec: `readable.push(chunk)` of the host runtime, "enqueue element,
signal completion": `null` is the end marker, any other chunk is queued in object mode, and
a chunk pushed after the end marker puts the stream in the error state
(`stream.push() after EOF`). -/
def Readable.push (r : Readable) (chunk : Value) : Readable :=
  if r.errored then r
  else if chunk = .null then { r with ended := true }
  else if r.ended then { r with errored := true }
  else { r with buffer := r.buffer ++ [chunk] }

/-- The call `readableStream.push(chunk)` on a stream of the heap. -/
def push (h : Heap) (stream : Value) (chunk : Value) : Heap :=
  match stream with
  | .ref a =>
    match h[a]? with
    | some (.readable r) => h.set a (.readable (r.push chunk))
    | _ => h
  | _ => h

/-- Modelled from the spec: what the listeners of "data" and "end" attached after
construction observe: every queued chunk in order, then the end signal once the end marker
was pushed. The spec has no words for a stream in the error state; there the host runtime
delivers the chunks queued before the failing push and then reports the error, without an
end signal. -/
def Readable.events (r : Readable) : List Event :=
  r.buffer.map Event.data ++
    (if r.errored then [.error] else if r.ended then [.end_] else [])

/-- Events observed by a consumer of the stream a value refers to. -/
def consume (h : Heap) (stream : Value) : Option (List Event) :=
  match stream with
  | .ref a =>
    match h[a]? with
    | some (.readable r) => some r.events
    | _ => none
  | _ => none

/-- Elements visited by `result.forEach(...)`, in index order: the holes of a sparse array
are skipped; only an array has the method. -/
def arrayItems (h : Heap) : Value → Except Err (List Value)
  | .ref a =>
    match h[a]? with
    | some (.array _ slots) => .ok (slots.filterMap id)
    | _ => .error .notAFunction
  | _ => .error .notAFunction

/-- Value a promise of the heap is resolved with. -/
def resolvedValue (h : Heap) : Value → Option Value
  | .ref a =>
    match h[a]? with
    | some (.promise v) => some v
    | _ => none
  | _ => none

/-! ## The library: `src/lib/sinon-mongo.js` -/

/-- Lines 50-51 and 59-60, shared by `documentArray` and `documentStream`:
`if (!result) result = []; if (result.constructor !== Array) result = [result];`. -/
def normalize (result : Value) (h : Heap) : Except Err (Value × Heap) := do
  let (result, h) :=
    if !truthy result then alloc h (.array (.builtin "Array") []) else (result, h)
  let c ← constructorOf h result
  if c ≠ .builtin "Array" then pure (alloc h (.array (.builtin "Array") [some result]))
  else pure (result, h)

/-- The factory `sinon.mongo.collection = methodStubs => sinon.createStubInstance(Collection,
methodStubs)`. -/
def collection (m : Mongo) (methodStubs : Option Props) (h : Heap) : Except Err (Value × Heap) :=
  createStubInstance "Collection" m.Collection methodStubs h

/-- Lines 13-16 and 31-34, shared by `mongoClient` and `db`:
`if (children) Object.getOwnPropertyNames(children).forEach(name =>
getter.withArgs(name).returns(children[name]))`. -/
def wireChildren (children : Option Props) (getter : Value) (h : Heap) : Heap :=
  match children with
  | some map =>
    (getOwnPropertyNames map).foldl
      (fun h name => withArgsReturns h getter name ((map.get name).getD .undefined)) h
  | none => h

/-- The factory `sinon.mongo.db = (collections, methodStubs) => ...`. -/
def db (m : Mongo) (collections methodStubs : Option Props) (h : Heap) :
    Except Err (Value × Heap) := do
  let (collectionGetterStub, h) := sinonStub h
  let (defaultCollection, h) ← collection m none h
  let h := returns h collectionGetterStub defaultCollection
  let h := wireChildren collections collectionGetterStub h
  createStubInstance "Db" m.Db (some (assign [("collection", collectionGetterStub)] methodStubs)) h

/-- The factory `sinon.mongo.mongoClient = (databases, methodStubs) => ...`. -/
def mongoClient (m : Mongo) (databases methodStubs : Option Props) (h : Heap) :
    Except Err (Value × Heap) := do
  let (dbGetterStub, h) := sinonStub h
  let (defaultDb, h) ← db m none none h
  let h := returns h dbGetterStub defaultDb
  let h := wireChildren databases dbGetterStub h
  let (stubMongoClient, h) ←
    createStubInstance "MongoClient" m.MongoClient (some (assign [("db", dbGetterStub)] methodStubs)) h
  let (connect, h) := sinonStub h
  let h := resolves h connect stubMongoClient
  let h := setProp h stubMongoClient "connect" connect
  pure (stubMongoClient, h)

/-- The helper `sinon.mongo.documentArray = result => ...`: the returned object holds
`toArray: () => Promise.resolve(result)`. -/
def documentArray (result : Value) (h : Heap) : Except Err (Value × Heap) := do
  let (result, h) ← normalize result h
  let (toArray, h) := alloc h (.fn (.promiseResolve result))
  pure (alloc h (.object "Object" [("toArray", toArray)]))

/-- The helper `sinon.mongo.documentStream = result => ...`. -/
def documentStream (result : Value) (h : Heap) : Except Err (Value × Heap) := do
  let (result, h) ← normalize result h
  let (readableStream, h) := alloc h (.readable newReadable)
  let items ← arrayItems h result
  let h := items.foldl (fun h item => push h readableStream item) h
  let h := push h readableStream .null
  let (stream, h) := alloc h (.fn (.const readableStream))
  let h := setProp h readableStream "stream" stream
  pure (readableStream, h)

/-- The value `documentArray(x).toArray()` resolves to, with the elements present in it
(what a `forEach` over it visits): the helper is called, then `toArray()` on its result, then
the promise is observed. -/
def toArrayResolved (x : Value) (h : Heap) : Option (Value × List Value) :=
  match documentArray x h with
  | .ok (r, h1) =>
    match callMethod h1 r "toArray" [] with
    | .ok (p, h2) =>
      match resolvedValue h2 p with
      | some res =>
        match arrayItems h2 res with
        | .ok items => some (res, items)
        | .error _ => none
      | none => none
    | .error _ => none
  | .error _ => none

/-- The value `documentArray(x).toArray()` resolves to, and the heap in which the promise is
observed; `none` when the helper or `toArray()` raises an error. -/
def toArrayValue (x : Value) (h : Heap) : Option (Value × Heap) :=
  match documentArray x h with
  | .ok (r, h1) =>
    match callMethod h1 r "toArray" [] with
    | .ok (p, h2) =>
      match resolvedValue h2 p with
      | some res => some (res, h2)
      | none => none
    | .error _ => none
  | .error _ => none

/-- The events a consumer of `documentStream(x)` observes. -/
def streamEvents (x : Value) (h : Heap) : Option (List Event) :=
  match documentStream x h with
  | .ok (r, h1) => consume h1 r
  | .error _ => none

/-- The inputs the two result helpers document: nothing (or a falsy value), an array whose
`constructor` is `Array`, or a scalar, that is a truthy value whose `constructor` is not
`Array` (an array with another constructor is among them: the helpers wrap it). -/
def DocumentedInput (h : Heap) (x : Value) : Prop :=
  truthy x = false ∨
    (∃ a slots, x = .ref a ∧ h[a]? = some (.array (.builtin "Array") slots)) ∨
    (truthy x = true ∧ ∃ c, constructorOf h x = .ok c ∧ c ≠ .builtin "Array")

/-- The fakes a child getter holds after the wiring loop of a parent factory: one
`withArgs(name).returns(map[name])` per own property name of the map. -/
def wiredFakes (children : Option Props) : List (String × Behavior) :=
  match children with
  | some map =>
    (getOwnPropertyNames map).foldl
      (fun fs name => setFake fs name (.returns ((map.get name).getD .undefined))) []
  | none => []

/-- One heap extends another: every object of the first is still there, unchanged. -/
def Extends (h h1 : Heap) : Prop :=
  h.length ≤ h1.length ∧ ∀ a, a < h.length → h1[a]? = h[a]?

/-- A child getter in working order: the member `name` of `obj` is the stub at address `g`,
whose default behaviour is `d` and whose fakes are `fs`, whatever its call count. -/
def GetterState (h : Heap) (obj : Value) (name : String) (g : Nat) (d : Behavior)
    (fs : List (String × Behavior)) : Prop :=
  getProp h obj name = .ref g ∧ ∃ n, h[g]? = some (.stub ⟨d, fs, n⟩)

/-- A value that exists before the factory runs: a primitive, or a reference into the heap
the factory starts from. -/
def Prebuilt (h : Heap) (v : Value) : Prop := ∀ a, v = .ref a → a < h.length

/-- The values of `client.db(n1)` and then `client.db(n2)` on the substitute built by
`sinon.mongo.mongoClient(databases)`. -/
def dbTwice (m : Mongo) (databases : Option Props) (h : Heap) (n1 n2 : String) :
    Option (Value × Value) :=
  match mongoClient m databases none h with
  | .ok (c, h1) =>
    match callMethod h1 c "db" [.str n1] with
    | .ok (v1, h2) =>
      match callMethod h2 c "db" [.str n2] with
      | .ok (v2, _) => some (v1, v2)
      | .error _ => none
    | .error _ => none
  | .error _ => none

/-- Whether the stream returned by `documentStream(x)` is in the error state once the
helper has returned. -/
def streamErrored (x : Value) (h : Heap) : Option Bool :=
  match documentStream x h with
  | .ok (.ref a, h1) =>
    match h1[a]? with
    | some (.readable r) => some r.errored
    | _ => none
  | _ => none

/-- Whether, in a sequence pushed element by element, some element other than `null` comes
after a `null`: that element is pushed after the end marker. -/
def pushedAfterEnd : List Value → Bool
  | [] => false
  | x :: xs => if x = .null then xs.any (fun y => decide (y ≠ .null)) else pushedAfterEnd xs

/-! ## Heap lemmas -/

theorem lt_of_get {h : Heap} {a : Nat} {o : HObj} (ha : h[a]? = some o) : a < h.length :=
  (List.getElem?_eq_some.1 ha).1

theorem get_alloc_old {h : Heap} {a : Nat} (o : HObj) (ha : a < h.length) :
    (h ++ [o])[a]? = h[a]? :=
  List.getElem?_append_left ha

theorem get_alloc_new (h : Heap) (o : HObj) : (h ++ [o])[h.length]? = some o := by simp

theorem get_set_same {h : Heap} {a : Nat} (o : HObj) (ha : a < h.length) :
    (h.set a o)[a]? = some o :=
  List.getElem?_set_self ha

theorem get_set_other {h : Heap} {a b : Nat} (o : HObj) (hab : a ≠ b) :
    (h.set a o)[b]? = h[b]? :=
  List.getElem?_set_ne hab

/-! ## Result helpers -/

theorem normalize_array {h : Heap} {a : Nat} {slots : List (Option Value)}
    (ha : h[a]? = some (.array (.builtin "Array") slots)) :
    normalize (.ref a) h = .ok (.ref a, h) := by
  simp [normalize, truthy, constructorOf, ha, HObj.constructorOf, bind, Except.bind, pure,
    Except.pure]

theorem normalize_falsy {h : Heap} {x : Value} (hx : truthy x = false) :
    normalize x h = .ok (.ref h.length, h ++ [.array (.builtin "Array") []]) := by
  simp [normalize, hx, alloc, constructorOf, HObj.constructorOf, bind, Except.bind, pure,
    Except.pure]

theorem normalize_scalar {h : Heap} {x c : Value} (hx : truthy x = true)
    (hc : constructorOf h x = .ok c) (hne : c ≠ .builtin "Array") :
    normalize x h = .ok (.ref h.length, h ++ [.array (.builtin "Array") [some x]]) := by
  simp [normalize, hx, alloc, hc, hne, bind, Except.bind, pure, Except.pure]

theorem props_push (r : Readable) (chunk : Value) : (r.push chunk).props = r.props := by
  unfold Readable.push
  split <;> [rfl; (split <;> [rfl; (split <;> rfl)])]

theorem props_foldl_push (items : List Value) :
    ∀ r : Readable, (items.foldl Readable.push r).props = r.props := by
  induction items with
  | nil => intro r; rfl
  | cons x xs ih => intro r; rw [List.foldl_cons, ih, props_push]

theorem foldl_Readable_push (items : List Value) :
    ∀ r : Readable, r.errored = false → r.ended = false → Value.null ∉ items →
      items.foldl Readable.push r = { r with buffer := r.buffer ++ items } := by
  induction items with
  | nil => intro r _ _ _; simp
  | cons x xs ih =>
    intro r hr he hn
    have hx : x ≠ Value.null := fun hx => hn (by simp [hx])
    have hxs : Value.null ∉ xs := fun hxs => hn (by simp [hxs])
    have hp : r.push x = { r with buffer := r.buffer ++ [x] } := by
      simp [Readable.push, hr, he, hx]
    rw [List.foldl_cons, hp, ih { r with buffer := r.buffer ++ [x] } hr he hxs]
    simp

theorem foldl_push (items : List Value) :
    ∀ (h : Heap) (a : Nat) (r : Readable), h[a]? = some (.readable r) →
      (items.foldl (fun h item => push h (.ref a) item) h)[a]? =
          some (.readable (items.foldl Readable.push r)) ∧
        (items.foldl (fun h item => push h (.ref a) item) h).length = h.length ∧
        ∀ b, b ≠ a → (items.foldl (fun h item => push h (.ref a) item) h)[b]? = h[b]? := by
  induction items with
  | nil => intro h a r ha; simp [ha]
  | cons x xs ih =>
    intro h a r ha
    have hlt := lt_of_get ha
    have hp : push h (.ref a) x = h.set a (.readable (r.push x)) := by simp [push, ha]
    have ha1 : (h.set a (.readable (r.push x)))[a]? = some (.readable (r.push x)) :=
      get_set_same _ hlt
    obtain ⟨h1, h2, h3⟩ := ih _ a _ ha1
    rw [List.foldl_cons, hp]
    refine ⟨h1, by simpa using h2, fun b hb => ?_⟩
    rw [h3 b hb, get_set_other _ (Ne.symm hb)]

/-- Result of `documentStream` once the input is normalized to an array: the stream sits at
the next free address with the elements and the end marker pushed, its `stream` property
is the arrow function allocated right after it, older objects are untouched. -/
theorem documentStream_of_normalize {x res : Value} {h h0 : Heap} {items : List Value}
    (hn : normalize x h = .ok (res, h0)) (hi : arrayItems h0 res = .ok items) :
    ∃ h1, documentStream x h = .ok (.ref h0.length, h1) ∧
      h1[h0.length]? = some (.readable
        { (items.foldl Readable.push newReadable).push .null with
          props := [("stream", .ref (h0.length + 1))] }) ∧
      h1[h0.length + 1]? = some (.fn (.const (.ref h0.length))) ∧
      ∀ a, a < h0.length → h1[a]? = h0[a]? := by
  have hi1 : arrayItems (h0 ++ [.readable newReadable]) res = .ok items := by
    cases res with
    | ref a =>
      simp only [arrayItems] at hi ⊢
      cases hg : h0[a]? with
      | none => simp [hg] at hi
      | some o => rw [get_alloc_old _ (lt_of_get hg), hg]; simpa [hg] using hi
    | _ => simp [arrayItems] at hi
  obtain ⟨f1, f2, f3⟩ := foldl_push items (h0 ++ [.readable newReadable]) h0.length newReadable
    (get_alloc_new _ _)
  generalize hF : items.foldl (fun h item => push h (.ref h0.length) item)
    (h0 ++ [.readable newReadable]) = hf at f1 f2 f3
  have hlen : hf.length = h0.length + 1 := by simpa using f2
  have hlt : h0.length < hf.length := by omega
  have hpn : push hf (.ref h0.length) .null =
      hf.set h0.length (.readable ((items.foldl Readable.push newReadable).push .null)) := by
    simp [push, f1]
  refine ⟨setProp (hf.set h0.length (.readable
      ((items.foldl Readable.push newReadable).push .null)) ++ [.fn (.const (.ref h0.length))])
      (.ref h0.length) "stream" (.ref (hf.set h0.length (.readable
      ((items.foldl Readable.push newReadable).push .null))).length), ?_, ?_, ?_, ?_⟩
  · simp only [documentStream, hn, alloc, hi1, hF, hpn, bind, Except.bind, pure, Except.pure]
  · simp [setProp, List.getElem?_append_left, hlt, Props.set, props_push, props_foldl_push,
      newReadable, hlen]
  · have : (h0.length + 1) ≠ h0.length := by omega
    simp [setProp, List.getElem?_append_left, hlt, Props.set, List.getElem?_set, hlen]
  · intro a ha
    have h1 : a < hf.length := by omega
    have h2 : a ≠ h0.length := by omega
    have h3 : h0.length ≠ a := by omega
    simp only [setProp, List.length_set, List.getElem?_append_left, hlt, List.getElem?_set_self]
    simp only [List.getElem?_set, h3, if_false]
    rw [List.getElem?_append_left (by simpa using h1), List.getElem?_set_ne h3, f3 a h2,
      get_alloc_old _ ha]

/-- Result of `documentArray` once the input is normalized, whatever it is normalized to:
`toArray()` raises no error and resolves to the normalized value itself, and the objects
that existed after the normalization are untouched. -/
theorem toArrayValue_of_normalize {x res : Value} {h h0 : Heap}
    (hn : normalize x h = .ok (res, h0)) :
    ∃ h2, toArrayValue x h = some (res, h2) ∧ ∀ a, a < h0.length → h2[a]? = h0[a]? := by
  have hd : documentArray x h = .ok (.ref (h0.length + 1),
      h0 ++ [.fn (.promiseResolve res)] ++ [.object "Object" [("toArray", .ref h0.length)]]) := by
    simp [documentArray, hn, alloc, bind, Except.bind, pure, Except.pure]
  have hg : getProp (h0 ++ [.fn (.promiseResolve res)] ++
      [.object "Object" [("toArray", .ref h0.length)]]) (.ref (h0.length + 1)) "toArray" =
      .ref h0.length := by
    have : (h0 ++ [HObj.fn (.promiseResolve res)] ++
        [HObj.object "Object" [("toArray", .ref h0.length)]])[h0.length + 1]? =
        some (.object "Object" [("toArray", .ref h0.length)]) := by
      have := get_alloc_new (h0 ++ [HObj.fn (.promiseResolve res)])
        (.object "Object" [("toArray", .ref h0.length)])
      simpa using this
    simp only [getProp, this]
    simp [Props.get]
  have hc : callMethod (h0 ++ [.fn (.promiseResolve res)] ++
      [.object "Object" [("toArray", .ref h0.length)]]) (.ref (h0.length + 1)) "toArray" [] =
      .ok (.ref (h0.length + 2), h0 ++ [.fn (.promiseResolve res)] ++
        [.object "Object" [("toArray", .ref h0.length)]] ++ [.promise res]) := by
    have : (h0 ++ [HObj.fn (.promiseResolve res)] ++
        [HObj.object "Object" [("toArray", .ref h0.length)]])[h0.length]? =
        some (.fn (.promiseResolve res)) := by
      rw [List.append_assoc, List.getElem?_append_right (le_refl _)]
      simp
    simp only [callMethod, hg, call, this, alloc]
    simp
  have hr : resolvedValue (h0 ++ [.fn (.promiseResolve res)] ++
      [.object "Object" [("toArray", .ref h0.length)]] ++ [.promise res])
      (.ref (h0.length + 2)) = some res := by
    have : (h0 ++ [HObj.fn (.promiseResolve res)] ++
        [HObj.object "Object" [("toArray", .ref h0.length)]] ++
        [HObj.promise res])[h0.length + 2]? = some (.promise res) := by
      have := get_alloc_new (h0 ++ [HObj.fn (.promiseResolve res)] ++
        [HObj.object "Object" [("toArray", .ref h0.length)]]) (.promise res)
      simpa using this
    simp only [resolvedValue, this]
  refine ⟨h0 ++ [.fn (.promiseResolve res)] ++
    [.object "Object" [("toArray", .ref h0.length)]] ++ [.promise res],
    by simp only [toArrayValue, hd, hc, hr], fun a ha => ?_⟩
  rw [List.append_assoc, List.append_assoc, List.getElem?_append_left ha]

/-- Result of `documentArray` once the input is normalized: `toArray()` resolves to the
normalized value itself, whose elements are read from the final heap. -/
theorem toArrayResolved_of_normalize {x res : Value} {h h0 : Heap} {items : List Value}
    (hn : normalize x h = .ok (res, h0)) (hi : arrayItems h0 res = .ok items) :
    toArrayResolved x h = some (res, items) := by
  have hi2 : arrayItems (h0 ++ [.fn (.promiseResolve res)] ++
      [.object "Object" [("toArray", .ref h0.length)]] ++ [.promise res]) res = .ok items := by
    cases res with
    | ref a =>
      simp only [arrayItems] at hi ⊢
      cases hg : h0[a]? with
      | none => simp [hg] at hi
      | some o =>
        have hlt := lt_of_get hg
        rw [List.append_assoc, List.append_assoc, List.getElem?_append_left hlt, hg]
        simpa [hg] using hi
    | _ => simp [arrayItems] at hi
  have hd : documentArray x h = .ok (.ref (h0.length + 1),
      h0 ++ [.fn (.promiseResolve res)] ++ [.object "Object" [("toArray", .ref h0.length)]]) := by
    simp [documentArray, hn, alloc, bind, Except.bind, pure, Except.pure]
  have hg : getProp (h0 ++ [.fn (.promiseResolve res)] ++
      [.object "Object" [("toArray", .ref h0.length)]]) (.ref (h0.length + 1)) "toArray" =
      .ref h0.length := by
    have : (h0 ++ [HObj.fn (.promiseResolve res)] ++
        [HObj.object "Object" [("toArray", .ref h0.length)]])[h0.length + 1]? =
        some (.object "Object" [("toArray", .ref h0.length)]) := by
      have := get_alloc_new (h0 ++ [HObj.fn (.promiseResolve res)])
        (.object "Object" [("toArray", .ref h0.length)])
      simpa using this
    simp only [getProp, this]
    simp [Props.get]
  have hc : callMethod (h0 ++ [.fn (.promiseResolve res)] ++
      [.object "Object" [("toArray", .ref h0.length)]]) (.ref (h0.length + 1)) "toArray" [] =
      .ok (.ref (h0.length + 2), h0 ++ [.fn (.promiseResolve res)] ++
        [.object "Object" [("toArray", .ref h0.length)]] ++ [.promise res]) := by
    have : (h0 ++ [HObj.fn (.promiseResolve res)] ++
        [HObj.object "Object" [("toArray", .ref h0.length)]])[h0.length]? =
        some (.fn (.promiseResolve res)) := by
      rw [List.append_assoc, List.getElem?_append_right (le_refl _)]
      simp
    simp only [callMethod, hg, call, this, alloc]
    simp
  have hr : resolvedValue (h0 ++ [.fn (.promiseResolve res)] ++
      [.object "Object" [("toArray", .ref h0.length)]] ++ [.promise res])
      (.ref (h0.length + 2)) = some res := by
    have : (h0 ++ [HObj.fn (.promiseResolve res)] ++
        [HObj.object "Object" [("toArray", .ref h0.length)]] ++
        [HObj.promise res])[h0.length + 2]? = some (.promise res) := by
      have := get_alloc_new (h0 ++ [HObj.fn (.promiseResolve res)] ++
        [HObj.object "Object" [("toArray", .ref h0.length)]]) (.promise res)
      simpa using this
    simp only [resolvedValue, this]
  simp only [toArrayResolved, hd, hc, hr, hi2]

theorem arrayItems_alloc_new (h : Heap) (ctor : Value) (slots : List (Option Value)) :
    arrayItems (h ++ [.array ctor slots]) (.ref h.length) = .ok (slots.filterMap id) := by
  simp [arrayItems]

theorem arrayItems_of_get {h : Heap} {a : Nat} {ctor : Value} {slots : List (Option Value)}
    (ha : h[a]? = some (.array ctor slots)) :
    arrayItems h (.ref a) = .ok (slots.filterMap id) := by
  simp [arrayItems, ha]

theorem streamEvents_of_normalize {x res : Value} {h h0 : Heap} {items : List Value}
    (hn : normalize x h = .ok (res, h0)) (hi : arrayItems h0 res = .ok items) :
    streamEvents x h = some ((items.foldl Readable.push newReadable).push .null).events := by
  obtain ⟨h1, e1, e2, _, _⟩ := documentStream_of_normalize hn hi
  simp [streamEvents, e1, consume, e2, Readable.events]

theorem events_of_no_null {items : List Value} (hn : Value.null ∉ items) :
    ((items.foldl Readable.push newReadable).push .null).events =
      items.map Event.data ++ [Event.end_] := by
  rw [foldl_Readable_push items newReadable rfl rfl hn]
  simp [Readable.push, Readable.events, newReadable]

theorem normalize_documented {h : Heap} {x : Value} (hx : DocumentedInput h x) :
    ∃ res h0 items, normalize x h = .ok (res, h0) ∧ arrayItems h0 res = .ok items := by
  rcases hx with hf | ⟨a, slots, rfl, ha⟩ | ⟨ht, c, hc, hne⟩
  · exact ⟨_, _, [], normalize_falsy hf, arrayItems_alloc_new h _ []⟩
  · exact ⟨_, _, _, normalize_array ha, arrayItems_of_get ha⟩
  · exact ⟨_, _, [x], normalize_scalar ht hc hne, arrayItems_alloc_new h _ [some x]⟩

/-! ## Properties, fakes and stubs -/

theorem Props.get_set_eq (ps : Props) (k : String) (v : Value) :
    (ps.set k v).get k = some v := by
  induction ps with
  | nil => simp [Props.set, Props.get]
  | cons p ps ih =>
    obtain ⟨k1, v1⟩ := p
    by_cases hk : k1 = k
    · simp [Props.set, Props.get, hk]
    · simp [Props.set, Props.get, hk, ih]

theorem Props.get_set_ne (ps : Props) {k k1 : String} (v : Value) (hk : k ≠ k1) :
    (ps.set k v).get k1 = ps.get k1 := by
  induction ps with
  | nil => simp [Props.set, Props.get, hk]
  | cons p ps ih =>
    obtain ⟨k2, v2⟩ := p
    by_cases h2 : k2 = k
    · subst h2
      simp [Props.set, Props.get, hk]
    · by_cases h3 : k2 = k1
      · subst h3
        simp [Props.set, Props.get, h2]
      · simp [Props.set, Props.get, h2, h3, ih]

theorem lookupFake_setFake (fs : List (String × Behavior)) (k n : String) (b : Behavior) :
    lookupFake (setFake fs k b) n = if k = n then some b else lookupFake fs n := by
  induction fs with
  | nil => simp [setFake, lookupFake]
  | cons p fs ih =>
    obtain ⟨k1, b1⟩ := p
    by_cases h1 : k1 = k
    · subst h1
      by_cases h2 : k1 = n <;> simp [setFake, lookupFake, h2]
    · by_cases h2 : k1 = n
      · subst h2
        simp [setFake, lookupFake, h1, Ne.symm h1]
      · simp [setFake, lookupFake, h1, h2, ih]

theorem lookupFake_foldl (val : String → Value) (names : List String) (n : String) :
    ∀ fs : List (String × Behavior),
      lookupFake (names.foldl (fun fs name => setFake fs name (.returns (val name))) fs) n =
        if n ∈ names then some (.returns (val n)) else lookupFake fs n := by
  induction names with
  | nil => intro fs; simp
  | cons k ks ih =>
    intro fs
    rw [List.foldl_cons, ih, lookupFake_setFake]
    by_cases h1 : n ∈ ks
    · simp [h1]
    · by_cases h2 : k = n
      · subst h2; simp
      · simp [h1, h2, Ne.symm h2]

theorem lookupFake_wiredFakes (children : Option Props) (n : String) :
    lookupFake (wiredFakes children) n =
      match children with
      | some map =>
        if n ∈ getOwnPropertyNames map then some (.returns ((map.get n).getD .undefined))
        else none
      | none => none := by
  cases children with
  | none => simp [wiredFakes, lookupFake]
  | some map =>
    simp only [wiredFakes]
    rw [lookupFake_foldl (fun name => (map.get name).getD .undefined)]
    simp [lookupFake]

theorem Extends.refl (h : Heap) : Extends h h := ⟨le_refl _, fun _ _ => rfl⟩

theorem Extends.trans {h h1 h2 : Heap} (e1 : Extends h h1) (e2 : Extends h1 h2) :
    Extends h h2 :=
  ⟨le_trans e1.1 e2.1, fun a ha => by rw [e2.2 a (lt_of_lt_of_le ha e1.1), e1.2 a ha]⟩

theorem Extends.alloc (h : Heap) (o : HObj) : Extends h (h ++ [o]) :=
  ⟨by simp, fun _ ha => get_alloc_old o ha⟩

theorem modifyStub_of_stub {h : Heap} {g : Nat} {s : Stub} (hg : h[g]? = some (.stub s))
    (f : Stub → Stub) : modifyStub h (.ref g) f = h.set g (.stub (f s)) := by
  simp [modifyStub, hg]

theorem foldl_withArgsReturns (val : String → Value) (g : Nat) (names : List String) :
    ∀ (h : Heap) (s : Stub), h[g]? = some (.stub s) →
      (names.foldl (fun h name => withArgsReturns h (.ref g) name (val name)) h)[g]? =
          some (.stub ⟨s.defaultBehavior,
            names.foldl (fun fs name => setFake fs name (.returns (val name))) s.fakes,
            s.callCount⟩) ∧
        (names.foldl (fun h name => withArgsReturns h (.ref g) name (val name)) h).length =
          h.length ∧
        ∀ b, b ≠ g →
          (names.foldl (fun h name => withArgsReturns h (.ref g) name (val name)) h)[b]? =
            h[b]? := by
  induction names with
  | nil => intro h s hg; simp [hg]
  | cons k ks ih =>
    intro h s hg
    have hlt := lt_of_get hg
    have hw : withArgsReturns h (.ref g) k (val k) =
        h.set g (.stub { s with fakes := setFake s.fakes k (.returns (val k)) }) := by
      simp [withArgsReturns, modifyStub, hg]
    have hs : (h.set g (.stub { s with fakes := setFake s.fakes k (.returns (val k)) }))[g]? =
        some (.stub { s with fakes := setFake s.fakes k (.returns (val k)) }) :=
      get_set_same _ hlt
    obtain ⟨h1, h2, h3⟩ := ih _ _ hs
    rw [List.foldl_cons, hw]
    refine ⟨by simpa using h1, by simpa using h2, fun b hb => ?_⟩
    rw [h3 b hb, get_set_other _ (Ne.symm hb)]

/-- Effect of `sinon.stub(object)` on an object of the heap: every listed method becomes a
new stub, other properties and other objects are untouched. -/
theorem stubMethods_spec (cls : String) (i : Nat) (ms : List String) :
    ∀ (h : Heap) (ps : Props), h[i]? = some (.object cls ps) →
      h.length ≤ (stubMethods (.ref i) ms h).length ∧
      (∀ a, a < h.length → a ≠ i → (stubMethods (.ref i) ms h)[a]? = h[a]?) ∧
      ∃ ps1, (stubMethods (.ref i) ms h)[i]? = some (.object cls ps1) ∧
        (∀ k, k ∈ ms → ∃ a, ps1.get k = some (.ref a) ∧ h.length ≤ a ∧
          (stubMethods (.ref i) ms h)[a]? = some freshStub) ∧
        (∀ k, k ∉ ms → ps1.get k = ps.get k) := by
  induction ms with
  | nil => intro h ps hi; exact ⟨le_refl _, fun _ _ _ => rfl, ps, hi, by simp, fun _ _ => rfl⟩
  | cons name rest ih =>
    intro h ps hi
    have hlt := lt_of_get hi
    have hi1 : (h ++ [freshStub])[i]? = some (.object cls ps) := by
      rw [get_alloc_old _ hlt, hi]
    have hstep : stubMethods (.ref i) (name :: rest) h =
        stubMethods (.ref i) rest
          ((h ++ [freshStub]).set i (.object cls (ps.set name (.ref h.length)))) := by
      simp only [stubMethods, sinonStub, alloc, setProp, hi1]
    have hlt1 : i < (h ++ [freshStub]).length := by simp; omega
    have hs : ((h ++ [freshStub]).set i (.object cls (ps.set name (.ref h.length))))[i]? =
        some (.object cls (ps.set name (.ref h.length))) := get_set_same _ hlt1
    obtain ⟨l, fr, ps1, o1, m1, n1⟩ := ih _ _ hs
    rw [hstep]
    simp only [List.length_set, List.length_append, List.length_singleton] at l fr m1
    refine ⟨by omega, fun a ha hai => ?_, ps1, o1, fun k hk => ?_, fun k hk => ?_⟩
    · rw [fr a (by omega) hai, get_set_other _ (Ne.symm hai), get_alloc_old _ ha]
    · by_cases hr : k ∈ rest
      · obtain ⟨a, e1, e2, e3⟩ := m1 k hr
        exact ⟨a, e1, by omega, e3⟩
      · have hkn : k = name := by simpa [hr] using hk
        subst hkn
        refine ⟨h.length, ?_, le_refl _, ?_⟩
        · rw [n1 k hr, Props.get_set_eq]
        · rw [fr h.length (by omega) (by omega), get_set_other _ (by omega), get_alloc_new]
    · have hk1 : name ≠ k := fun e => hk (by simp [e])
      have hk2 : k ∉ rest := fun e => hk (by simp [e])
      rw [n1 k hk2, Props.get_set_ne _ _ hk1]

/-! ## `createStubInstance` -/

/-- Without overrides `createStubInstance` allocates the substitute at the next free address,
every method of the class is a new stub, and no older object changes. -/
theorem createStubInstance_none (cls : String) (ms : List String) (h : Heap) :
    ∃ h1 ps, createStubInstance cls ms none h = .ok (.ref h.length, h1) ∧ Extends h h1 ∧
      h1[h.length]? = some (.object cls ps) ∧
      ∀ k, k ∈ ms → ∃ a, ps.get k = some (.ref a) ∧ h.length < a ∧ h1[a]? = some freshStub := by
  obtain ⟨l, fr, ps1, o1, m1, _⟩ := stubMethods_spec cls h.length ms (h ++ [.object cls []]) []
    (get_alloc_new _ _)
  simp only [List.length_append, List.length_singleton] at l fr m1
  refine ⟨stubMethods (.ref h.length) ms (h ++ [.object cls []]), ps1, ?_, ⟨by omega, ?_⟩, o1, ?_⟩
  · simp [createStubInstance, alloc, applyOverrides, getOwnPropertyNames]
  · intro a ha
    rw [fr a (by omega) (by omega), get_alloc_old _ ha]
  · intro k hk
    obtain ⟨a, e1, e2, e3⟩ := m1 k hk
    exact ⟨a, e1, by omega, e3⟩

/-- With the single override `k: g` where `g` is a stub, the member `k` of the substitute is
`g` itself, the other methods are new stubs, and no older object changes. -/
theorem createStubInstance_getter (cls : String) (ms : List String) (h : Heap) (k : String)
    (g : Nat) (s : Stub) (hk : k ∈ ms) (hg : h[g]? = some (.stub s)) :
    ∃ h1 ps, createStubInstance cls ms (some [(k, .ref g)]) h = .ok (.ref h.length, h1) ∧
      Extends h h1 ∧ h1[h.length]? = some (.object cls ps) ∧ ps.get k = some (.ref g) ∧
      ∀ k1, k1 ∈ ms → k1 ≠ k →
        ∃ a, ps.get k1 = some (.ref a) ∧ h.length < a ∧ h1[a]? = some freshStub := by
  obtain ⟨l, fr, ps1, o1, m1, _⟩ := stubMethods_spec cls h.length ms (h ++ [.object cls []]) []
    (get_alloc_new _ _)
  simp only [List.length_append, List.length_singleton] at l fr m1
  have hgl := lt_of_get hg
  have hg2 : (stubMethods (.ref h.length) ms (h ++ [.object cls []]))[g]? = some (.stub s) := by
    rw [fr g (by omega) (by omega), get_alloc_old _ hgl, hg]
  have hil : h.length < (stubMethods (.ref h.length) ms (h ++ [.object cls []])).length := by
    omega
  refine ⟨(stubMethods (.ref h.length) ms (h ++ [.object cls []])).set h.length
    (.object cls (ps1.set k (.ref g))), ps1.set k (.ref g), ?_, ⟨by simp; omega, ?_⟩,
    get_set_same _ hil, Props.get_set_eq _ _ _, ?_⟩
  · simp [createStubInstance, alloc, applyOverrides, getOwnPropertyNames, hk, Props.get, isStub,
      hg2, setProp, o1]
  · intro a ha
    rw [get_set_other _ (by omega), fr a (by omega) (by omega), get_alloc_old _ ha]
  · intro k1 hk1 hne
    obtain ⟨a, e1, e2, e3⟩ := m1 k1 hk1
    refine ⟨a, ?_, by omega, ?_⟩
    · rw [Props.get_set_ne _ _ (Ne.symm hne), e1]
    · rw [get_set_other _ (by omega), e3]

theorem modifyStub_get_object {h : Heap} {i : Nat} {cls : String} {ps : Props}
    (hi : h[i]? = some (.object cls ps)) (f : Value) (g : Stub → Stub) :
    (modifyStub h f g)[i]? = some (.object cls ps) := by
  cases f with
  | ref a =>
    simp only [modifyStub]
    cases ha : h[a]? with
    | none => simpa using hi
    | some o =>
      cases o with
      | stub s =>
        have hne : a ≠ i := by
          rintro rfl
          rw [hi] at ha
          cases ha
        simp only []
        rw [get_set_other _ hne, hi]
      | _ => simpa using hi
  | _ => simpa [modifyStub] using hi

theorem setProp_get_object {h : Heap} {i : Nat} {cls : String} {ps : Props}
    (hi : h[i]? = some (.object cls ps)) (name : String) (v : Value) :
    (setProp h (.ref i) name v)[i]? = some (.object cls (ps.set name v)) := by
  simp only [setProp, hi]
  exact get_set_same _ (lt_of_get hi)

/-- The override loop keeps the substitute an object of its class. -/
theorem applyOverrides_object (ms : List String) (i : Nat) (cls : String) (ov : Props)
    (keys : List String) :
    ∀ (h h1 : Heap) (ps : Props), h[i]? = some (.object cls ps) →
      applyOverrides ms (.ref i) ov keys h = .ok h1 → ∃ ps1, h1[i]? = some (.object cls ps1) := by
  induction keys with
  | nil =>
    intro h h1 ps hi ha
    simp only [applyOverrides, Except.ok.injEq] at ha
    subst ha
    exact ⟨ps, hi⟩
  | cons k ks ih =>
    intro h h1 ps hi ha
    simp only [applyOverrides] at ha
    split at ha
    · split at ha
      · exact ih _ _ _ (setProp_get_object hi _ _) ha
      · exact ih _ _ _ (modifyStub_get_object hi _ _) ha
    · cases ha

/-- The override loop fails only on a property the class does not have. -/
theorem applyOverrides_total (ms : List String) (obj : Value) (ov : Props)
    (keys : List String) :
    ∀ h : Heap, (∀ k, k ∈ keys → k ∈ ms) → ∃ h1, applyOverrides ms obj ov keys h = .ok h1 := by
  induction keys with
  | nil => intro h _; exact ⟨h, rfl⟩
  | cons k ks ih =>
    intro h hk
    have h1 : k ∈ ms := hk k (by simp)
    have h2 : ∀ k1, k1 ∈ ks → k1 ∈ ms := fun k1 hk1 => hk k1 (by simp [hk1])
    simp only [applyOverrides, h1, if_true]
    split
    · exact ih _ h2
    · exact ih _ h2

theorem createStubInstance_inv {cls : String} {ms : List String} {ov : Option Props}
    {h h1 : Heap} {v : Value} (hc : createStubInstance cls ms ov h = .ok (v, h1)) :
    v = .ref h.length ∧ ∃ ps, h1[h.length]? = some (.object cls ps) := by
  obtain ⟨_, _, ps1, o1, _, _⟩ := stubMethods_spec cls h.length ms (h ++ [.object cls []]) []
    (get_alloc_new _ _)
  simp only [createStubInstance, alloc] at hc
  split at hc
  · rename_i h3 ha
    simp only [Except.ok.injEq, Prod.mk.injEq] at hc
    obtain ⟨rfl, rfl⟩ := hc
    exact ⟨rfl, applyOverrides_object ms h.length cls _ _ _ _ _ o1 ha⟩
  · cases hc

theorem createStubInstance_total (cls : String) (ms : List String) (ov : Option Props)
    (h : Heap) (hk : ∀ k, k ∈ getOwnPropertyNames (ov.getD []) → k ∈ ms) :
    ∃ v h1, createStubInstance cls ms ov h = .ok (v, h1) := by
  obtain ⟨h1, e⟩ := applyOverrides_total ms (.ref h.length) (ov.getD [])
    (getOwnPropertyNames (ov.getD [])) (stubMethods (.ref h.length) ms (h ++ [.object cls []])) hk
  exact ⟨.ref h.length, h1, by simp [createStubInstance, alloc, e]⟩

/-! ## The factories -/

theorem wireChildren_spec (children : Option Props) (g : Nat) (h : Heap) (d : Behavior)
    (hg : h[g]? = some (.stub ⟨d, [], 0⟩)) :
    (wireChildren children (.ref g) h)[g]? = some (.stub ⟨d, wiredFakes children, 0⟩) ∧
      (wireChildren children (.ref g) h).length = h.length ∧
      ∀ b, b ≠ g → (wireChildren children (.ref g) h)[b]? = h[b]? := by
  cases children with
  | none => exact ⟨hg, rfl, fun _ _ => rfl⟩
  | some map =>
    exact foldl_withArgsReturns (fun name => (map.get name).getD .undefined) g
      (getOwnPropertyNames map) h _ hg

/-- What `sinon.mongo.db(collections)` builds: a substitute whose `collection` member is the
getter stub allocated first, configured with the default child and the wired names; every
other method is a new stub, and no older object changes. -/
theorem db_spec (m : Mongo) (collections : Option Props) (h : Heap)
    (hc : "collection" ∈ m.Db) :
    ∃ i h1 ps d hd, db m collections none h = .ok (.ref i, h1) ∧ Extends h h1 ∧ h.length < i ∧
      h1[i]? = some (.object "Db" ps) ∧ ps.get "collection" = some (.ref h.length) ∧
      h1[h.length]? = some (.stub ⟨.returns (.ref d), wiredFakes collections, 0⟩) ∧
      collection m none (h ++ [freshStub]) = .ok (.ref d, hd) ∧ h.length < d ∧
      (∀ a, h.length < a → a < hd.length → h1[a]? = hd[a]?) ∧
      ∀ k, k ∈ m.Db → k ≠ "collection" →
        ∃ a, ps.get k = some (.ref a) ∧ h.length < a ∧ h1[a]? = some freshStub := by
  obtain ⟨h2, cps, ec, x12, _, _⟩ :=
    createStubInstance_none "Collection" m.Collection (h ++ [freshStub])
  have hg2 : h2[h.length]? = some (.stub ⟨.unset, [], 0⟩) := by
    rw [x12.2 h.length (by simp), get_alloc_new]; rfl
  have hl2 : h.length < h2.length := lt_of_get hg2
  have hr : returns h2 (.ref h.length) (.ref (h ++ [freshStub]).length) =
      h2.set h.length (.stub ⟨.returns (.ref (h ++ [freshStub]).length), [], 0⟩) := by
    simp only [returns, modifyStub_of_stub hg2]
  obtain ⟨w1, w2, w3⟩ := wireChildren_spec collections h.length
    (h2.set h.length (.stub ⟨.returns (.ref (h ++ [freshStub]).length), [], 0⟩))
    (.returns (.ref (h ++ [freshStub]).length)) (get_set_same _ hl2)
  obtain ⟨h5, ps, e5, x45, o5, g5, m5⟩ := createStubInstance_getter "Db" m.Db _ "collection"
    h.length _ hc w1
  simp only [List.length_set] at w2
  refine ⟨_, h5, ps, (h ++ [freshStub]).length, h2, ?_, ⟨?_, ?_⟩, ?_, o5, g5, ?_, ?_, ?_, ?_, ?_⟩
  · simp only [db, sinonStub, alloc, collection, ec, hr, assign, bind, Except.bind]
    exact e5
  · have := x45.1
    omega
  · intro a ha
    rw [x45.2 a (by omega), w3 a (by omega), get_set_other _ (by omega),
      x12.2 a (by simp; omega), get_alloc_old _ ha]
  · omega
  · rw [x45.2 _ (by omega), w1]
  · exact ec
  · simp
  · intro a ha1 ha2
    have hh := x12.1
    rw [x45.2 a (by omega), w3 a (by omega), get_set_other _ (by omega)]
  · intro k hk hne
    obtain ⟨a, e1, e2, e3⟩ := m5 k hk hne
    exact ⟨a, e1, by omega, e3⟩

/-- What `sinon.mongo.mongoClient(databases)` builds: a substitute whose `db` member is the
getter stub allocated first, configured with the default child and the wired names; `connect`
and every method of the class are stubs, and no older object changes. -/
theorem mongoClient_spec (m : Mongo) (databases : Option Props) (h : Heap)
    (hdb : "db" ∈ m.MongoClient) (hc : "collection" ∈ m.Db) :
    ∃ i h1 ps d hd, mongoClient m databases none h = .ok (.ref i, h1) ∧ Extends h h1 ∧
      h.length < i ∧ h1[i]? = some (.object "MongoClient" ps) ∧
      ps.get "db" = some (.ref h.length) ∧
      h1[h.length]? = some (.stub ⟨.returns (.ref d), wiredFakes databases, 0⟩) ∧
      db m none none (h ++ [freshStub]) = .ok (.ref d, hd) ∧ h.length < d ∧
      (∀ a, h.length < a → a < hd.length → h1[a]? = hd[a]?) ∧
      ∀ k, k ∈ m.MongoClient ∨ k = "connect" →
        ∃ a s, ps.get k = some (.ref a) ∧ h1[a]? = some (.stub s) := by
  obtain ⟨d, h2, _, _, _, ed, x12, hd1, _, _, _, _, _, _, _⟩ :=
    db_spec m none (h ++ [freshStub]) hc
  simp only [List.length_append, List.length_singleton] at hd1
  have hg2 : h2[h.length]? = some (.stub ⟨.unset, [], 0⟩) := by
    rw [x12.2 h.length (by simp), get_alloc_new]; rfl
  have hl2 : h.length < h2.length := lt_of_get hg2
  have hr : returns h2 (.ref h.length) (.ref d) =
      h2.set h.length (.stub ⟨.returns (.ref d), [], 0⟩) := by
    simp only [returns, modifyStub_of_stub hg2]
  obtain ⟨w1, w2, w3⟩ := wireChildren_spec databases h.length
    (h2.set h.length (.stub ⟨.returns (.ref d), [], 0⟩)) (.returns (.ref d))
    (get_set_same _ hl2)
  obtain ⟨h4, eh4⟩ : ∃ h4, h4 = wireChildren databases (.ref h.length)
    (h2.set h.length (.stub ⟨.returns (.ref d), [], 0⟩)) := ⟨_, rfl⟩
  rw [← eh4] at w1 w2 w3
  simp only [List.length_set] at w2
  obtain ⟨h5, ps, e5, x45, o5, g5, m5⟩ := createStubInstance_getter "MongoClient"
    m.MongoClient h4 "db" h.length _ hdb w1
  have hl5 : h4.length < h5.length := lt_of_get o5
  have hc6 : (h5 ++ [freshStub])[h5.length]? = some (.stub ⟨.unset, [], 0⟩) :=
    get_alloc_new h5 freshStub
  have hres : resolves (h5 ++ [freshStub]) (.ref h5.length) (.ref h4.length) =
      (h5 ++ [freshStub]).set h5.length (.stub ⟨.resolves (.ref h4.length), [], 0⟩) := by
    simp only [resolves, modifyStub_of_stub hc6]
  have ho7 : ((h5 ++ [freshStub]).set h5.length
      (.stub ⟨.resolves (.ref h4.length), [], 0⟩))[h4.length]? =
      some (.object "MongoClient" ps) := by
    rw [get_set_other _ (by omega), get_alloc_old _ hl5, o5]
  have hl7 : h4.length < ((h5 ++ [freshStub]).set h5.length
      (.stub ⟨.resolves (.ref h4.length), [], 0⟩)).length := lt_of_get ho7
  have e : mongoClient m databases none h = .ok (.ref h4.length,
      ((h5 ++ [freshStub]).set h5.length (.stub ⟨.resolves (.ref h4.length), [], 0⟩)).set
        h4.length (.object "MongoClient" (ps.set "connect" (.ref h5.length)))) := by
    simp only [mongoClient, sinonStub, alloc, ed, hr, ← eh4, assign, e5, hres, setProp, ho7,
      bind, Except.bind, pure, Except.pure]
  have old : ∀ a, a < h5.length → a ≠ h4.length →
      (((h5 ++ [freshStub]).set h5.length (.stub ⟨.resolves (.ref h4.length), [], 0⟩)).set
        h4.length (.object "MongoClient" (ps.set "connect" (.ref h5.length))))[a]? = h5[a]? := by
    intro a ha hne
    rw [get_set_other _ (Ne.symm hne), get_set_other _ (by omega), get_alloc_old _ ha]
  refine ⟨_, _, _, d, h2, e, ⟨?_, ?_⟩, ?_, get_set_same _ hl7, ?_, ?_, ed, ?_, ?_, ?_⟩
  · simp only [List.length_set, List.length_append, List.length_singleton]
    omega
  · intro a ha
    rw [old a (by omega) (by omega), x45.2 a (by omega), w3 a (by omega),
      get_set_other _ (by omega), x12.2 a (by simp; omega), get_alloc_old _ ha]
  · omega
  · rw [Props.get_set_ne _ _ (by decide), g5]
  · rw [old _ (by omega) (by omega), x45.2 _ (by omega), w1]
  · omega
  · intro a ha1 ha2
    have hh := x12.1
    rw [old a (by omega) (by omega), x45.2 a (by omega), w3 a (by omega),
      get_set_other _ (by omega)]
  · intro k hk
    by_cases hk1 : k = "connect"
    · subst hk1
      refine ⟨h5.length, ⟨.resolves (.ref h4.length), [], 0⟩, Props.get_set_eq _ _ _, ?_⟩
      rw [get_set_other _ (by omega)]
      exact get_set_same _ (by simp)
    · have hk2 : k ∈ m.MongoClient := by
        rcases hk with hk | hk
        · exact hk
        · exact absurd hk hk1
      by_cases hk3 : k = "db"
      · subst hk3
        refine ⟨h.length, ⟨.returns (.ref d), wiredFakes databases, 0⟩, ?_, ?_⟩
        · rw [Props.get_set_ne _ _ (by decide), g5]
        · rw [old _ (by omega) (by omega), x45.2 _ (by omega), w1]
      · obtain ⟨a, e1, e2, e3⟩ := m5 k hk2 hk3
        refine ⟨a, ⟨.unset, [], 0⟩, ?_, ?_⟩
        · rw [Props.get_set_ne _ _ (Ne.symm hk1), e1]
        · rw [old a (lt_of_get e3) (by omega), e3]
          rfl

/-! ## Calls of a child getter -/

theorem runBehavior_get (h : Heap) (b : Behavior) {a : Nat} (ha : a < h.length) :
    (runBehavior h b).2[a]? = h[a]? := by
  cases b with
  | unset => rfl
  | returns v => rfl
  | resolves v => exact get_alloc_old _ ha

theorem runBehavior_returns (h : Heap) (v : Value) : (runBehavior h (.returns v)).1 = v := rfl

theorem behaviorFor_callCount (d : Behavior) (fs : List (String × Behavior)) (n : Nat)
    (args : List Value) :
    Stub.behaviorFor ⟨d, fs, n⟩ args = Stub.behaviorFor ⟨d, fs, 0⟩ args := by
  unfold Stub.behaviorFor
  split <;> rfl

theorem getProp_congr {h h1 : Heap} {i : Nat} (e : h1[i]? = h[i]?) (name : String) :
    getProp h1 (.ref i) name = getProp h (.ref i) name := by
  simp only [getProp, e]

/-- One call of a child getter: it returns, the getter stays as configured, and when the
selected behaviour is `returns(w)` the value returned is `w`. -/
theorem getter_call {h : Heap} {obj : Value} {name : String} {g : Nat} {d : Behavior}
    {fs : List (String × Behavior)} (hs : GetterState h obj name g d fs) (args : List Value) :
    ∃ v h1, callMethod h obj name args = .ok (v, h1) ∧ GetterState h1 obj name g d fs ∧
      ∀ w, Stub.behaviorFor ⟨d, fs, 0⟩ args = .returns w → v = w := by
  obtain ⟨hp, n, hg⟩ := hs
  have hgl := lt_of_get hg
  cases obj with
  | ref i =>
    have hig : g ≠ i := by
      rintro rfl
      simp [getProp, hg] at hp
    have hil : i < h.length := by
      by_contra hcon
      have : h[i]? = none := List.getElem?_eq_none (by omega)
      simp [getProp, this] at hp
    have hcall : callMethod h (.ref i) name args =
        .ok (runBehavior (h.set g (.stub ⟨d, fs, n + 1⟩)) (Stub.behaviorFor ⟨d, fs, n⟩ args)) := by
      simp only [callMethod, hp, call, hg]
    have hi1 : (runBehavior (h.set g (.stub ⟨d, fs, n + 1⟩))
        (Stub.behaviorFor ⟨d, fs, n⟩ args)).2[i]? = h[i]? := by
      rw [runBehavior_get _ _ (by simpa using hil), get_set_other _ hig]
    have hg1 : (runBehavior (h.set g (.stub ⟨d, fs, n + 1⟩))
        (Stub.behaviorFor ⟨d, fs, n⟩ args)).2[g]? = some (.stub ⟨d, fs, n + 1⟩) := by
      rw [runBehavior_get _ _ (by simpa using hgl), get_set_same _ hgl]
    refine ⟨_, _, hcall, ⟨?_, n + 1, hg1⟩, ?_⟩
    · rw [← hp]
      exact getProp_congr hi1 name
    · intro w hw
      rw [behaviorFor_callCount, hw]
  | _ => simp [getProp] at hp

/-- Any run of calls of a child getter returns and leaves the getter as configured. -/
theorem getter_callMany {obj : Value} {name : String} {g : Nat} {d : Behavior}
    {fs : List (String × Behavior)} (prior : List (List Value)) :
    ∀ h : Heap, GetterState h obj name g d fs →
      ∃ h1, callMethodMany h obj name prior = .ok h1 ∧ GetterState h1 obj name g d fs := by
  induction prior with
  | nil => intro h hs; exact ⟨h, rfl, hs⟩
  | cons args rest ih =>
    intro h hs
    obtain ⟨v, h1, e1, s1, _⟩ := getter_call hs args
    obtain ⟨h2, e2, s2⟩ := ih h1 s1
    exact ⟨h2, by simp only [callMethodMany, e1, e2], s2⟩

theorem mem_names_of_get {map : Props} {n : String} {v : Value} (hv : map.get n = some v) :
    n ∈ getOwnPropertyNames map := by
  induction map with
  | nil => simp [Props.get] at hv
  | cons p ps ih =>
    obtain ⟨k, w⟩ := p
    by_cases hk : k = n
    · simp [getOwnPropertyNames, hk]
    · simp only [Props.get, hk, if_false] at hv
      have := ih hv
      simp only [getOwnPropertyNames] at this ⊢
      simp [this]

/-- Behaviour a wired getter selects for a name: the wired value when the name is an own
property of the map, the default behaviour otherwise. -/
theorem behaviorFor_wired (d : Behavior) (children : Option Props) (n : String) :
    Stub.behaviorFor ⟨d, wiredFakes children, 0⟩ [.str n] =
      match children with
      | some map =>
        if n ∈ getOwnPropertyNames map then .returns ((map.get n).getD .undefined) else d
      | none => d := by
  simp only [Stub.behaviorFor, lookupFake_wiredFakes]
  cases children with
  | none => rfl
  | some map =>
    by_cases hn : n ∈ getOwnPropertyNames map <;> simp [hn]

theorem getterState_of_object {h : Heap} {i g : Nat} {cls : String} {ps : Props} {name : String}
    {d : Behavior} {fs : List (String × Behavior)} (ho : h[i]? = some (.object cls ps))
    (hp : ps.get name = some (.ref g)) (hg : h[g]? = some (.stub ⟨d, fs, 0⟩)) :
    GetterState h (.ref i) name g d fs :=
  ⟨by simp [getProp, ho, hp], 0, hg⟩

/-! ## Claims about the result helpers -/

theorem normalize_ctor_array {h : Heap} {x : Value} (hx : truthy x = true)
    (hc : constructorOf h x = .ok (.builtin "Array")) : normalize x h = .ok (x, h) := by
  simp [normalize, hx, hc, bind, Except.bind, pure, Except.pure]

theorem constructorOf_array {h : Heap} {a : Nat} {ctor : Value} {slots : List (Option Value)}
    (ha : h[a]? = some (.array ctor slots)) : constructorOf h (.ref a) = .ok ctor := by
  simp [constructorOf, ha, HObj.constructorOf]

/-- C2, as stated, fails: an array that is an instance of a class `L` extending `Array` has
`constructor` `L`, so line 51 wraps it: `toArray()` resolves to a new one-element array
holding the input, not to the elements of the input. -/
theorem documentArray_wraps_subclass_array :
    toArrayResolved (.ref 0) [.array (.builtin "L") [some (.num 1), some (.num 2)]] =
      some (.ref 1, [.ref 0]) ∧
    ¬ ∃ res, toArrayResolved (.ref 0) [.array (.builtin "L") [some (.num 1), some (.num 2)]] =
      some (res, [.num 1, .num 2]) := by
  have h0 : toArrayResolved (.ref 0) [.array (.builtin "L") [some (.num 1), some (.num 2)]] =
      some (.ref 1, [.ref 0]) := by decide
  refine ⟨h0, ?_⟩
  rintro ⟨res, hres⟩
  rw [h0] at hres
  simp at hres

/-- C2, amended: for an array input `a` whose `constructor` is `Array`,
`documentArray(a).toArray()` resolves to `a` itself, left as it was: the same elements in the
same order (and the same holes); an array with another `constructor` is wrapped and
`toArray()` resolves to a new one-element array holding it; called without input it
resolves to a new empty array. -/
theorem documentArray_toArray_array (h : Heap) :
    (∀ (a : Nat) (slots : List (Option Value)),
      h[a]? = some (.array (.builtin "Array") slots) →
      toArrayResolved (.ref a) h = some (.ref a, slots.filterMap id) ∧
      ∃ h2, toArrayValue (.ref a) h = some (.ref a, h2) ∧
        h2[a]? = some (.array (.builtin "Array") slots)) ∧
    (∀ (a : Nat) (ctor : Value) (slots : List (Option Value)),
      h[a]? = some (.array ctor slots) → ctor ≠ .builtin "Array" →
      ∃ h2, toArrayValue (.ref a) h = some (.ref h.length, h2) ∧
        h2[h.length]? = some (.array (.builtin "Array") [some (.ref a)]) ∧
        h2[a]? = some (.array ctor slots)) ∧
    toArrayResolved .undefined h = some (.ref h.length, []) := by
  refine ⟨fun a slots ha => ⟨?_, ?_⟩, fun a ctor slots ha hne => ?_, ?_⟩
  · exact toArrayResolved_of_normalize (normalize_array ha) (arrayItems_of_get ha)
  · obtain ⟨h2, e, fr⟩ := toArrayValue_of_normalize (normalize_array ha)
    exact ⟨h2, e, by rw [fr a (lt_of_get ha), ha]⟩
  · have ht : truthy (.ref a) = true := rfl
    obtain ⟨h2, e, fr⟩ := toArrayValue_of_normalize
      (normalize_scalar ht (constructorOf_array ha) hne)
    have hl := lt_of_get ha
    refine ⟨h2, e, ?_, ?_⟩
    · rw [fr h.length (by simp), get_alloc_new]
    · rw [fr a (by simp; omega), get_alloc_old _ hl, ha]
  · exact toArrayResolved_of_normalize (normalize_falsy rfl) (arrayItems_alloc_new h _ [])

theorem documentArray_toArray_array_witness :
    toArrayResolved (.ref 0) [.array (.builtin "Array") [some (.num 1), some (.str "second")]] =
      some (.ref 0, [.num 1, .str "second"]) ∧
    ∃ h2, toArrayValue (.ref 0)
        [.array (.builtin "Array") [some (.num 1), some (.str "second")]] = some (.ref 0, h2) ∧
      h2[0]? = some (.array (.builtin "Array") [some (.num 1), some (.str "second")]) :=
  (documentArray_toArray_array
    [.array (.builtin "Array") [some (.num 1), some (.str "second")]]).1 0
    [some (.num 1), some (.str "second")] rfl

/-- C3, as stated, fails: the number 0 is present and is not an array, yet
`documentArray(0).toArray()` resolves to the empty array and not to `[0]`. -/
theorem documentArray_zero_resolves_empty :
    toArrayResolved (.num 0) [] = some (.ref 0, []) ∧
    ¬ ∃ res, toArrayResolved (.num 0) [] = some (res, [.num 0]) := by
  have h0 : toArrayResolved (.num 0) [] = some (.ref 0, []) :=
    toArrayResolved_of_normalize (normalize_falsy rfl) (arrayItems_alloc_new [] _ [])
  refine ⟨h0, ?_⟩
  rintro ⟨res, hres⟩
  rw [h0] at hres
  simp at hres

/-- C3, amended: for every truthy input `s` whose `constructor` is not `Array`,
`documentArray(s).toArray()` resolves to a new one-element array `[s]`; for every falsy
input (`false`, 0, NaN, the empty string, `null`, `undefined`) it resolves to a new empty
array. -/
theorem documentArray_toArray_scalar (h : Heap) (s : Value) :
    (truthy s = true → ∀ c, constructorOf h s = .ok c → c ≠ .builtin "Array" →
      toArrayResolved s h = some (.ref h.length, [s])) ∧
    (truthy s = false → toArrayResolved s h = some (.ref h.length, [])) := by
  refine ⟨fun ht c hc hne => ?_, fun hf => ?_⟩
  · exact toArrayResolved_of_normalize (normalize_scalar ht hc hne)
      (arrayItems_alloc_new h _ [some s])
  · exact toArrayResolved_of_normalize (normalize_falsy hf) (arrayItems_alloc_new h _ [])

theorem documentArray_toArray_scalar_witness :
    toArrayResolved (.ref 0) [.object "Object" [("a", .str "mock document")]] =
      some (.ref 1, [.ref 0]) ∧
    toArrayResolved (.bool false) [.object "Object" [("a", .str "mock document")]] =
      some (.ref 1, []) :=
  ⟨(documentArray_toArray_scalar [.object "Object" [("a", .str "mock document")]] (.ref 0)).1
      rfl (.builtin "Object") rfl (by decide),
    (documentArray_toArray_scalar [.object "Object" [("a", .str "mock document")]]
      (.bool false)).2 rfl⟩

theorem events_of_one (x : Value) (hx : x ≠ .null) :
    (([x].foldl Readable.push newReadable).push .null).events =
      [Event.data x, Event.end_] := by
  simp [Readable.push, Readable.events, newReadable, hx]

/-- C4, as stated, fails: for the one-element array `[null]` the stream delivers no data
event before the end signal, because `null` is the end marker of a readable stream. -/
theorem documentStream_null_element_no_data :
    streamEvents (.ref 0) [.array (.builtin "Array") [some .null]] = some [Event.end_] ∧
    streamEvents (.ref 0) [.array (.builtin "Array") [some .null]] ≠
      some ([Value.null].map Event.data ++ [Event.end_]) := by
  have h0 : streamEvents (.ref 0) [.array (.builtin "Array") [some .null]] =
      some [Event.end_] := by decide
  refine ⟨h0, ?_⟩
  rw [h0]
  simp

/-- C4, amended: for every array input whose `constructor` is `Array` and none of whose
elements is `null`, the stream of `documentStream(a)` delivers one data event per element
present in the array, in index order, followed by one end signal: a hole of a sparse array
delivers nothing, so a dense array of length n delivers exactly n data events. An array with
another `constructor` is wrapped: one data event carrying the array itself, then the end
signal. Without input the stream delivers no data event and then one end signal. -/
theorem documentStream_events_in_order (h : Heap) :
    (∀ (a : Nat) (slots : List (Option Value)),
      h[a]? = some (.array (.builtin "Array") slots) → some Value.null ∉ slots →
      streamEvents (.ref a) h = some ((slots.filterMap id).map Event.data ++ [Event.end_])) ∧
    (∀ (a : Nat) (items : List Value),
      h[a]? = some (.array (.builtin "Array") (items.map some)) → Value.null ∉ items →
      streamEvents (.ref a) h = some (items.map Event.data ++ [Event.end_]) ∧
      (items.map Event.data).length = items.length) ∧
    (∀ (a : Nat) (ctor : Value) (slots : List (Option Value)),
      h[a]? = some (.array ctor slots) → ctor ≠ .builtin "Array" →
      streamEvents (.ref a) h = some [Event.data (.ref a), Event.end_]) ∧
    streamEvents .undefined h = some [Event.end_] := by
  have key : ∀ (a : Nat) (slots : List (Option Value)),
      h[a]? = some (.array (.builtin "Array") slots) → some Value.null ∉ slots →
      streamEvents (.ref a) h =
        some ((slots.filterMap id).map Event.data ++ [Event.end_]) := by
    intro a slots ha hn
    have hn2 : Value.null ∉ slots.filterMap id := by
      intro hmem
      rw [List.mem_filterMap] at hmem
      obtain ⟨o, ho, hid⟩ := hmem
      simp only [id] at hid
      exact hn (hid ▸ ho)
    rw [streamEvents_of_normalize (normalize_array ha) (arrayItems_of_get ha),
      events_of_no_null hn2]
  refine ⟨key, fun a items ha hn => ⟨?_, by simp⟩, fun a ctor slots ha hne => ?_, ?_⟩
  · have hn2 : some Value.null ∉ items.map some := by
      intro hmem
      rw [List.mem_map] at hmem
      obtain ⟨y, hy, hy2⟩ := hmem
      exact hn (Option.some.inj hy2 ▸ hy)
    have hfm : (items.map some).filterMap id = items := by
      induction items with
      | nil => rfl
      | cons y ys ih => simp
    rw [key a _ ha hn2, hfm]
  · have hi : arrayItems (h ++ [.array (.builtin "Array") [some (.ref a)]]) (.ref h.length) =
        .ok [.ref a] := arrayItems_alloc_new h _ [some (.ref a)]
    have ht : truthy (.ref a) = true := rfl
    have hnn : Value.ref a ≠ Value.null := by simp
    rw [streamEvents_of_normalize (normalize_scalar ht (constructorOf_array ha) hne) hi,
      events_of_one _ hnn]
  · have hf : truthy .undefined = false := rfl
    have hi : arrayItems (h ++ [.array (.builtin "Array") []]) (.ref h.length) = .ok [] :=
      arrayItems_alloc_new h _ []
    rw [streamEvents_of_normalize (normalize_falsy hf) hi, events_of_no_null (by simp)]
    rfl

theorem documentStream_events_in_order_witness :
    streamEvents (.ref 0) [.array (.builtin "Array") [some (.str "first"), none,
      some (.str "third")]] =
      some [Event.data (.str "first"), Event.data (.str "third"), Event.end_] ∧
    (streamEvents (.ref 0) [.array (.builtin "Array") [some (.str "first"),
      some (.str "second")]] =
      some [Event.data (.str "first"), Event.data (.str "second"), Event.end_] ∧
      ([Value.str "first", Value.str "second"].map Event.data).length = 2) :=
  ⟨(documentStream_events_in_order [.array (.builtin "Array") [some (.str "first"), none,
      some (.str "third")]]).1 0 [some (.str "first"), none, some (.str "third")] rfl
      (by decide),
    (documentStream_events_in_order [.array (.builtin "Array") [some (.str "first"),
      some (.str "second")]]).2.1 0 [.str "first", .str "second"] rfl (by decide)⟩

/-- C10: for every documented input (absent, scalar or array) `documentStream(x)` returns
an object `r` whose `stream()` accessor returns `r` itself and changes nothing, so that
consuming `r` and consuming `r.stream()` observe the same events. -/
theorem documentStream_stream_returns_itself (h : Heap) (x : Value)
    (hx : DocumentedInput h x) :
    ∃ r h1, documentStream x h = .ok (r, h1) ∧ callMethod h1 r "stream" [] = .ok (r, h1) := by
  obtain ⟨res, h0, items, hn, hi⟩ := normalize_documented hx
  obtain ⟨h1, e1, e2, e3, _⟩ := documentStream_of_normalize hn hi
  refine ⟨_, h1, e1, ?_⟩
  simp [callMethod, getProp, e2, Props.get, call, e3]

theorem documentStream_stream_returns_itself_witness :
    ∃ r h1, documentStream (.ref 0) [.array (.builtin "Array") [some (.num 7)]] = .ok (r, h1) ∧
      callMethod h1 r "stream" [] = .ok (r, h1) :=
  documentStream_stream_returns_itself [.array (.builtin "Array") [some (.num 7)]] (.ref 0)
    (Or.inr (Or.inl ⟨0, [some (.num 7)], rfl, rfl⟩))

/-! ## Claims about the factories -/

theorem stub_member {h : Heap} {i a : Nat} {cls : String} {ps : Props} {k : String} {s : Stub}
    (ho : h[i]? = some (.object cls ps)) (hp : ps.get k = some (.ref a))
    (ha : h[a]? = some (.stub s)) :
    isStub h (getProp h (.ref i) k) = true ∧
      ∀ args, ∃ v h2, callMethod h (.ref i) k args = .ok (v, h2) := by
  have hg : getProp h (.ref i) k = .ref a := by simp [getProp, ho, hp]
  refine ⟨by simp [hg, isStub, ha], fun args => ?_⟩
  exact ⟨(runBehavior (h.set a (.stub { s with callCount := s.callCount + 1 }))
      (s.behaviorFor args)).1,
    (runBehavior (h.set a (.stub { s with callCount := s.callCount + 1 }))
      (s.behaviorFor args)).2, by simp only [callMethod, hg, call, ha]⟩

/-- C1: for either parent factory called without method overrides, and for every value `v`
stored under a name `n` in the map given to it, every call of the child getter with `n`,
after any run of earlier calls, returns `v` itself; and when `v` existed before the factory
ran, the default child (what the getter returns without a name) is another object. -/
theorem wired_child_is_returned (m : Mongo) (h : Heap) (map : Props) (n : String) (v : Value)
    (hv : map.get n = some v) (prior : List (List Value)) :
    ("db" ∈ m.MongoClient → "collection" ∈ m.Db →
      ∃ c h1 h2 h3, mongoClient m (some map) none h = .ok (c, h1) ∧
        callMethodMany h1 c "db" prior = .ok h2 ∧
        callMethod h2 c "db" [.str n] = .ok (v, h3) ∧
        (Prebuilt h v → ∀ u h4, callMethod h2 c "db" [] = .ok (u, h4) → u ≠ v)) ∧
    ("collection" ∈ m.Db →
      ∃ c h1 h2 h3, db m (some map) none h = .ok (c, h1) ∧
        callMethodMany h1 c "collection" prior = .ok h2 ∧
        callMethod h2 c "collection" [.str n] = .ok (v, h3) ∧
        (Prebuilt h v → ∀ u h4, callMethod h2 c "collection" [] = .ok (u, h4) → u ≠ v)) := by
  have hb : ∀ d : Behavior,
      Stub.behaviorFor ⟨d, wiredFakes (some map), 0⟩ [.str n] = .returns v := by
    intro d
    rw [behaviorFor_wired]
    simp [mem_names_of_get hv, hv]
  have key : ∀ (c : Value) (h1 : Heap) (name : String) (g d : Nat),
      GetterState h1 c name g (.returns (.ref d)) (wiredFakes (some map)) → h.length < d →
      ∃ h2 h3, callMethodMany h1 c name prior = .ok h2 ∧
        callMethod h2 c name [.str n] = .ok (v, h3) ∧
        (Prebuilt h v → ∀ u h4, callMethod h2 c name [] = .ok (u, h4) → u ≠ v) := by
    intro c h1 name g d gs hd
    obtain ⟨h2, e2, s2⟩ := getter_callMany prior h1 gs
    obtain ⟨u, h3, e3, _, r3⟩ := getter_call s2 [.str n]
    obtain ⟨u0, h4, e4, _, r4⟩ := getter_call s2 []
    have hu : u = v := r3 v (hb _)
    have hu0 : u0 = .ref d := r4 _ rfl
    subst hu
    refine ⟨h2, h3, e2, e3, fun hpre w h5 e5 hw => ?_⟩
    rw [e4] at e5
    simp only [Except.ok.injEq, Prod.mk.injEq] at e5
    have := hpre d (by rw [← hw, ← e5.1, hu0])
    omega
  refine ⟨fun hdb hc => ?_, fun hc => ?_⟩
  · obtain ⟨i, h1, ps, d, hd, e, _, _, ho, hp, hg, _, hlt, _, _⟩ :=
      mongoClient_spec m (some map) h hdb hc
    obtain ⟨h2, h3, r⟩ := key _ h1 "db" _ d (getterState_of_object ho hp hg) hlt
    exact ⟨_, h1, h2, h3, e, r⟩
  · obtain ⟨i, h1, ps, d, hd, e, _, _, ho, hp, hg, _, hlt, _, _⟩ := db_spec m (some map) h hc
    obtain ⟨h2, h3, r⟩ := key _ h1 "collection" _ d (getterState_of_object ho hp hg) hlt
    exact ⟨_, h1, h2, h3, e, r⟩

theorem wired_child_is_returned_witness :
    (∃ c h1 h2 h3,
      mongoClient ⟨["connect", "db", "close"], ["collection"], ["find"]⟩
        (some [("default", .ref 0)]) none [.object "Object" [("the", .str "default database")]] =
        .ok (c, h1) ∧
      callMethodMany h1 c "db" [[.str "reporting"], []] = .ok h2 ∧
      callMethod h2 c "db" [.str "default"] = .ok (.ref 0, h3) ∧
      (Prebuilt [.object "Object" [("the", .str "default database")]] (.ref 0) →
        ∀ u h4, callMethod h2 c "db" [] = .ok (u, h4) → u ≠ .ref 0)) ∧
    (∃ c h1 h2 h3,
      db ⟨["connect", "db", "close"], ["collection"], ["find"]⟩
        (some [("default", .ref 0)]) none [.object "Object" [("the", .str "default database")]] =
        .ok (c, h1) ∧
      callMethodMany h1 c "collection" [[.str "reporting"], []] = .ok h2 ∧
      callMethod h2 c "collection" [.str "default"] = .ok (.ref 0, h3) ∧
      (Prebuilt [.object "Object" [("the", .str "default database")]] (.ref 0) →
        ∀ u h4, callMethod h2 c "collection" [] = .ok (u, h4) → u ≠ .ref 0)) :=
  ⟨(wired_child_is_returned ⟨["connect", "db", "close"], ["collection"], ["find"]⟩
      [.object "Object" [("the", .str "default database")]] [("default", .ref 0)] "default"
      (.ref 0) rfl [[.str "reporting"], []]).1 (by decide) (by decide),
    (wired_child_is_returned ⟨["connect", "db", "close"], ["collection"], ["find"]⟩
      [.object "Object" [("the", .str "default database")]] [("default", .ref 0)] "default"
      (.ref 0) rfl [[.str "reporting"], []]).2 (by decide)⟩

/-- C7, as stated, fails: two calls of `db` with two names that are not wired return the
same object, not two distinct ones. -/
theorem default_db_is_shared_between_calls :
    dbTwice ⟨["connect", "db", "close"], ["collection"], ["find"]⟩
      (some [("default", .ref 0)]) [.object "Object" [("the", .str "default database")]]
      "anythingElse" "another" = some (.ref 5, .ref 5) := by
  decide

/-- C7, amended: the substitute built by `sinon.mongo.mongoClient(databases)` holds one
default child, built by `sinon.mongo.db()` without arguments while the substitute is
constructed and unchanged since; it differs from every value that existed before, so from
every pre-built object of `databases`; and every call of `db` with a name that is not an own
property of `databases`, after any run of earlier calls, returns that same default child. -/
theorem default_db_is_built_once (m : Mongo) (h : Heap) (databases : Option Props)
    (hdb : "db" ∈ m.MongoClient) (hc : "collection" ∈ m.Db) :
    ∃ c h1 d hd, mongoClient m databases none h = .ok (c, h1) ∧
      db m none none (sinonStub h).2 = .ok (.ref d, hd) ∧
      (∀ a, h.length < a → a < hd.length → h1[a]? = hd[a]?) ∧
      (∀ v, Prebuilt h v → v ≠ .ref d) ∧
      ∀ n : String, n ∉ getOwnPropertyNames (databases.getD []) →
        ∀ prior : List (List Value), ∃ h2 h3, callMethodMany h1 c "db" prior = .ok h2 ∧
          callMethod h2 c "db" [.str n] = .ok (.ref d, h3) := by
  obtain ⟨i, h1, ps, d, hd, e, _, _, ho, hp, hg, ed, hlt, hsame, _⟩ :=
    mongoClient_spec m databases h hdb hc
  refine ⟨_, h1, d, hd, e, ed, hsame, fun v hv hvd => ?_, fun n hn prior => ?_⟩
  · have := hv d hvd
    omega
  · obtain ⟨h2, e2, s2⟩ := getter_callMany prior h1 (getterState_of_object ho hp hg)
    obtain ⟨u, h3, e3, _, r3⟩ := getter_call s2 [.str n]
    have hb : Stub.behaviorFor ⟨.returns (.ref d), wiredFakes databases, 0⟩ [.str n] =
        .returns (.ref d) := by
      rw [behaviorFor_wired]
      cases databases with
      | none => rfl
      | some map => simp only [Option.getD_some] at hn; simp [hn]
    rw [r3 _ hb] at e3
    exact ⟨h2, h3, e2, e3⟩

theorem default_db_is_built_once_witness :
    ∃ c h1 d hd,
      mongoClient ⟨["connect", "db", "close"], ["collection"], ["find"]⟩
        (some [("default", .ref 0)]) none [.object "Object" [("the", .str "default database")]] =
        .ok (c, h1) ∧
      db ⟨["connect", "db", "close"], ["collection"], ["find"]⟩ none none
        (sinonStub [.object "Object" [("the", .str "default database")]]).2 = .ok (.ref d, hd) ∧
      (∀ a, [HObj.object "Object" [("the", .str "default database")]].length < a →
        a < hd.length → h1[a]? = hd[a]?) ∧
      (∀ v, Prebuilt [.object "Object" [("the", .str "default database")]] v → v ≠ .ref d) ∧
      ∀ n : String, n ∉ getOwnPropertyNames ((some [("default", Value.ref 0)]).getD []) →
        ∀ prior : List (List Value), ∃ h2 h3, callMethodMany h1 c "db" prior = .ok h2 ∧
          callMethod h2 c "db" [.str n] = .ok (.ref d, h3) :=
  default_db_is_built_once ⟨["connect", "db", "close"], ["collection"], ["find"]⟩
    [.object "Object" [("the", .str "default database")]] (some [("default", .ref 0)])
    (by decide) (by decide)

/-- C8: on a substitute built by `sinon.mongo.db(collections)` and then configured with
`collection.withArgs(n).returns(v)`, `collection(n)` returns `v`, and for every other name
`collection(k)` returns what it returned before the configuration: the value wired under `k`
when there is one, the default child (built by `sinon.mongo.collection()`) otherwise. -/
theorem withArgs_changes_one_name (m : Mongo) (h : Heap) (collections : Option Props)
    (hc : "collection" ∈ m.Db) (n : String) (v : Value) :
    ∃ c h1, db m collections none h = .ok (c, h1) ∧
      (∃ h3, callMethod (withArgsReturns h1 (getProp h1 c "collection") n v) c "collection"
        [.str n] = .ok (v, h3)) ∧
      ∀ k : String, k ≠ n → ∃ u h3 h4,
        callMethod h1 c "collection" [.str k] = .ok (u, h3) ∧
        callMethod (withArgsReturns h1 (getProp h1 c "collection") n v) c "collection"
          [.str k] = .ok (u, h4) ∧
        (∀ w, (collections.getD []).get k = some w → u = w) ∧
        (k ∉ getOwnPropertyNames (collections.getD []) →
          ∃ hd, collection m none (sinonStub h).2 = .ok (u, hd)) := by
  obtain ⟨i, h1, ps, d, hd, e, _, hli, ho, hp, hg, ed, _, _, _⟩ := db_spec m collections h hc
  have hgp : getProp h1 (.ref i) "collection" = .ref h.length := by simp [getProp, ho, hp]
  have hw : withArgsReturns h1 (.ref h.length) n v = h1.set h.length
      (.stub ⟨.returns (.ref d), setFake (wiredFakes collections) n (.returns v), 0⟩) := by
    simp only [withArgsReturns, modifyStub_of_stub hg]
  have s1 : GetterState h1 (.ref i) "collection" h.length (.returns (.ref d))
      (wiredFakes collections) := getterState_of_object ho hp hg
  have s2 : GetterState (withArgsReturns h1 (.ref h.length) n v) (.ref i) "collection" h.length
      (.returns (.ref d)) (setFake (wiredFakes collections) n (.returns v)) := by
    rw [hw]
    have ho2 : (h1.set h.length (.stub ⟨.returns (.ref d),
        setFake (wiredFakes collections) n (.returns v), 0⟩))[i]? = some (.object "Db" ps) := by
      rw [get_set_other _ (by omega), ho]
    exact getterState_of_object ho2 hp (get_set_same _ (lt_of_get hg))
  have hb : ∀ k : String,
      Stub.behaviorFor ⟨.returns (.ref d), setFake (wiredFakes collections) n (.returns v), 0⟩
        [.str k] =
      if n = k then .returns v
      else Stub.behaviorFor ⟨.returns (.ref d), wiredFakes collections, 0⟩ [.str k] := by
    intro k
    simp only [Stub.behaviorFor, lookupFake_setFake]
    by_cases hnk : n = k <;> simp [hnk]
  refine ⟨_, h1, e, ?_, fun k hk => ?_⟩
  · rw [hgp]
    obtain ⟨u, h3, e3, _, r3⟩ := getter_call s2 [.str n]
    rw [r3 v (by rw [hb]; simp)] at e3
    exact ⟨h3, e3⟩
  · rw [hgp]
    obtain ⟨u, h3, e3, _, r3⟩ := getter_call s1 [.str k]
    obtain ⟨u2, h4, e4, _, r4⟩ := getter_call s2 [.str k]
    have hbk := hb k
    simp only [Ne.symm hk, if_false] at hbk
    rw [hbk] at r4
    have hwired := behaviorFor_wired (.returns (.ref d)) collections k
    cases collections with
    | none =>
      simp only at hwired
      have hu : u = .ref d := r3 _ hwired
      have hu2 : u2 = .ref d := r4 _ hwired
      subst hu
      subst hu2
      exact ⟨_, h3, h4, e3, e4, fun w hw => by simp [Props.get] at hw, fun _ => ⟨hd, ed⟩⟩
    | some map =>
      simp only at hwired
      by_cases hmem : k ∈ getOwnPropertyNames map
      · simp only [hmem, if_true] at hwired
        have hu : u = (map.get k).getD .undefined := r3 _ hwired
        have hu2 : u2 = (map.get k).getD .undefined := r4 _ hwired
        subst hu
        subst hu2
        refine ⟨_, h3, h4, e3, e4, fun w hw => ?_, fun hcon => absurd hmem hcon⟩
        simp only [Option.getD_some] at hw
        simp [hw]
      · simp only [hmem, if_false] at hwired
        have hu : u = .ref d := r3 _ hwired
        have hu2 : u2 = .ref d := r4 _ hwired
        subst hu
        subst hu2
        refine ⟨_, h3, h4, e3, e4, fun w hw => ?_, fun _ => ⟨hd, ed⟩⟩
        simp only [Option.getD_some] at hw
        exact absurd (mem_names_of_get hw) hmem

theorem withArgs_changes_one_name_witness :
    ∃ c h1,
      db ⟨["connect", "db", "close"], ["collection"], ["find"]⟩ (some [("customers", .ref 0)])
        none [.object "Object" [("the", .str "mock customer collection")]] = .ok (c, h1) ∧
      (∃ h3, callMethod (withArgsReturns h1 (getProp h1 c "collection") "myCollection"
        (.str "mock collection")) c "collection" [.str "myCollection"] =
        .ok (.str "mock collection", h3)) ∧
      ∀ k : String, k ≠ "myCollection" → ∃ u h3 h4,
        callMethod h1 c "collection" [.str k] = .ok (u, h3) ∧
        callMethod (withArgsReturns h1 (getProp h1 c "collection") "myCollection"
          (.str "mock collection")) c "collection" [.str k] = .ok (u, h4) ∧
        (∀ w, ((some [("customers", Value.ref 0)] : Option Props).getD []).get k = some w →
          u = w) ∧
        (k ∉ getOwnPropertyNames ((some [("customers", Value.ref 0)] : Option Props).getD []) →
          ∃ hd, collection ⟨["connect", "db", "close"], ["collection"], ["find"]⟩ none
            (sinonStub [.object "Object" [("the", .str "mock customer collection")]]).2 =
            .ok (u, hd)) :=
  withArgs_changes_one_name ⟨["connect", "db", "close"], ["collection"], ["find"]⟩
    [.object "Object" [("the", .str "mock customer collection")]]
    (some [("customers", .ref 0)]) (by decide) "myCollection" (.str "mock collection")

/-- C9: each of the three factories, called without arguments, returns a substitute on which
every method name of the wrapped class (and `connect` on the connection substitute) is a
member holding a sinon stub, which every argument list can call. The parent factories need
the getter they replace (`db`, `collection`) to be a method of the wrapped class. -/
theorem every_method_is_a_stub (m : Mongo) (h : Heap) :
    ("db" ∈ m.MongoClient → "collection" ∈ m.Db →
      ∃ c h1, mongoClient m none none h = .ok (c, h1) ∧
        ∀ k, k ∈ m.MongoClient ∨ k = "connect" →
          isStub h1 (getProp h1 c k) = true ∧
            ∀ args, ∃ v h2, callMethod h1 c k args = .ok (v, h2)) ∧
    ("collection" ∈ m.Db →
      ∃ c h1, db m none none h = .ok (c, h1) ∧
        ∀ k, k ∈ m.Db →
          isStub h1 (getProp h1 c k) = true ∧
            ∀ args, ∃ v h2, callMethod h1 c k args = .ok (v, h2)) ∧
    (∃ c h1, collection m none h = .ok (c, h1) ∧
        ∀ k, k ∈ m.Collection →
          isStub h1 (getProp h1 c k) = true ∧
            ∀ args, ∃ v h2, callMethod h1 c k args = .ok (v, h2)) := by
  refine ⟨fun hdb hc => ?_, fun hc => ?_, ?_⟩
  · obtain ⟨i, h1, ps, d, hd, e, _, _, ho, _, _, _, _, _, hm⟩ :=
      mongoClient_spec m none h hdb hc
    refine ⟨_, h1, e, fun k hk => ?_⟩
    obtain ⟨a, s, e1, e2⟩ := hm k hk
    exact stub_member ho e1 e2
  · obtain ⟨i, h1, ps, d, hd, e, _, _, ho, hp, hg, _, _, _, hm⟩ := db_spec m none h hc
    refine ⟨_, h1, e, fun k hk => ?_⟩
    by_cases hkc : k = "collection"
    · subst hkc
      exact stub_member ho hp hg
    · obtain ⟨a, e1, _, e3⟩ := hm k hk hkc
      exact stub_member ho e1 e3
  · obtain ⟨h1, ps, e, _, ho, hm⟩ := createStubInstance_none "Collection" m.Collection h
    refine ⟨_, h1, e, fun k hk => ?_⟩
    obtain ⟨a, e1, _, e3⟩ := hm k hk
    exact stub_member ho e1 e3

theorem every_method_is_a_stub_witness :
    ∃ c h1,
      mongoClient ⟨["connect", "db", "close"], ["collection"], ["find"]⟩ none none [] =
        .ok (c, h1) ∧
      ∀ k, k ∈ ["connect", "db", "close"] ∨ k = "connect" →
        isStub h1 (getProp h1 c k) = true ∧
          ∀ args, ∃ v h2, callMethod h1 c k args = .ok (v, h2) :=
  (every_method_is_a_stub ⟨["connect", "db", "close"], ["collection"], ["find"]⟩ []).1
    (by decide) (by decide)

theorem behaviorFor_no_fakes (d : Behavior) (n : Nat) (args : List Value) :
    Stub.behaviorFor ⟨d, [], n⟩ args = d := by
  unfold Stub.behaviorFor
  split <;> simp [lookupFake]

theorem names_set (ps : Props) (k : String) (v : Value) (k1 : String)
    (hk : k1 ∈ getOwnPropertyNames (ps.set k v)) : k1 = k ∨ k1 ∈ getOwnPropertyNames ps := by
  induction ps with
  | nil => left; simpa [Props.set, getOwnPropertyNames] using hk
  | cons p ps ih =>
    obtain ⟨k2, v2⟩ := p
    by_cases h2 : k2 = k
    · right
      simpa [Props.set, getOwnPropertyNames, h2] using hk
    · simp only [Props.set, h2, if_false, getOwnPropertyNames, List.map_cons,
        List.mem_cons] at hk
      rcases hk with hk | hk
      · right; simp [getOwnPropertyNames, hk]
      · rcases ih hk with h3 | h3
        · left; exact h3
        · right
          simp only [getOwnPropertyNames] at h3
          simp [getOwnPropertyNames, h3]

theorem names_assign (src : Props) (k : String) :
    ∀ t : Props, k ∈ getOwnPropertyNames (assign t (some src)) →
      k ∈ getOwnPropertyNames t ∨ k ∈ getOwnPropertyNames src := by
  induction src with
  | nil => intro t hk; left; simpa [assign] using hk
  | cons p ps ih =>
    intro t hk
    obtain ⟨k2, v2⟩ := p
    have hk1 : k ∈ getOwnPropertyNames (assign (t.set k2 v2) (some ps)) := by
      simpa [assign] using hk
    rcases ih _ hk1 with h1 | h1
    · rcases names_set _ _ _ _ h1 with h2 | h2
      · right; simp [getOwnPropertyNames, h2]
      · left; exact h2
    · right
      simp only [getOwnPropertyNames] at h1
      simp [getOwnPropertyNames, h1]

/-- A member that is a stub configured with `resolves(v)` and nothing else returns, for any
arguments, a promise resolved with `v`. -/
theorem call_resolves {h : Heap} {i c n : Nat} {cls : String} {ps : Props} {name : String}
    {v : Value} (ho : h[i]? = some (.object cls ps)) (hp : ps.get name = some (.ref c))
    (hs : h[c]? = some (.stub ⟨.resolves v, [], n⟩)) (args : List Value) :
    ∃ p h2, callMethod h (.ref i) name args = .ok (p, h2) ∧ resolvedValue h2 p = some v := by
  have hg : getProp h (.ref i) name = .ref c := by simp [getProp, ho, hp]
  refine ⟨.ref (h.set c (.stub ⟨.resolves v, [], n + 1⟩)).length,
    h.set c (.stub ⟨.resolves v, [], n + 1⟩) ++ [.promise v], ?_, ?_⟩
  · simp only [callMethod, hg, call, hs, behaviorFor_no_fakes, runBehavior, alloc]
  · simp only [resolvedValue, get_alloc_new]

/-- C5: whatever the two arguments, when `sinon.mongo.mongoClient(databases, methodStubs)`
returns a substitute `c`, `c.connect(...)` returns a promise resolved with `c` itself; and the
factory does return a substitute whenever `db` is a method of the wrapped connection class,
`collection` one of the wrapped database class, and every override names a method of the
connection class. -/
theorem connect_resolves_to_the_client (m : Mongo) (databases methodStubs : Option Props)
    (h : Heap) :
    (∀ c h1, mongoClient m databases methodStubs h = .ok (c, h1) →
      ∀ args, ∃ p h2, callMethod h1 c "connect" args = .ok (p, h2) ∧
        resolvedValue h2 p = some c) ∧
    ("db" ∈ m.MongoClient → "collection" ∈ m.Db →
      (∀ k, k ∈ getOwnPropertyNames (methodStubs.getD []) → k ∈ m.MongoClient) →
      ∃ c h1, mongoClient m databases methodStubs h = .ok (c, h1)) := by
  refine ⟨fun c h1 hm args => ?_, fun hdb hc hk => ?_⟩
  · simp only [mongoClient, sinonStub, alloc, bind, Except.bind] at hm
    cases hdbr : db m none none (h ++ [freshStub]) with
    | error e => simp [hdbr] at hm
    | ok r =>
      obtain ⟨dv, h2⟩ := r
      simp only [hdbr] at hm
      cases hcs : createStubInstance "MongoClient" m.MongoClient
          (some (assign [("db", .ref h.length)] methodStubs))
          (wireChildren databases (.ref h.length) (returns h2 (.ref h.length) dv)) with
      | error e => simp [hcs] at hm
      | ok r2 =>
        obtain ⟨sv, h5⟩ := r2
        obtain ⟨hsv, ps, o5⟩ := createStubInstance_inv hcs
        simp only [hcs, pure, Except.pure, Except.ok.injEq, Prod.mk.injEq] at hm
        obtain ⟨hm1, hm2⟩ := hm
        generalize (wireChildren databases (.ref h.length)
          (returns h2 (.ref h.length) dv)).length = I at hsv o5
        subst hsv
        subst hm1
        have hl5 : I < h5.length := lt_of_get o5
        have hc6 : (h5 ++ [freshStub])[h5.length]? = some (.stub ⟨.unset, [], 0⟩) :=
          get_alloc_new h5 freshStub
        have hres : resolves (h5 ++ [freshStub]) (.ref h5.length) (.ref I) =
            (h5 ++ [freshStub]).set h5.length (.stub ⟨.resolves (.ref I), [], 0⟩) := by
          simp only [resolves, modifyStub_of_stub hc6]
        have ho7 : ((h5 ++ [freshStub]).set h5.length
            (.stub ⟨.resolves (.ref I), [], 0⟩))[I]? = some (.object "MongoClient" ps) := by
          rw [get_set_other _ (by omega), get_alloc_old _ hl5, o5]
        have hfin : h1 = ((h5 ++ [freshStub]).set h5.length
            (.stub ⟨.resolves (.ref I), [], 0⟩)).set I
            (.object "MongoClient" (ps.set "connect" (.ref h5.length))) := by
          rw [← hm2, hres]
          simp only [setProp, ho7]
        have ho8 : h1[I]? = some (.object "MongoClient" (ps.set "connect" (.ref h5.length))) := by
          rw [hfin]
          exact get_set_same _ (lt_of_get ho7)
        have hs8 : h1[h5.length]? = some (.stub ⟨.resolves (.ref I), [], 0⟩) := by
          rw [hfin, get_set_other _ (by omega)]
          exact get_set_same _ (by simp)
        exact call_resolves ho8 (Props.get_set_eq _ _ _) hs8 args
  · obtain ⟨d, h2, _, _, _, ed, _, _, _, _, _, _, _, _, _⟩ := db_spec m none (h ++ [freshStub]) hc
    have hkeys : ∀ k, k ∈ getOwnPropertyNames
        ((some (assign [("db", .ref h.length)] methodStubs)).getD []) → k ∈ m.MongoClient := by
      intro k hin
      simp only [Option.getD_some] at hin
      cases methodStubs with
      | none =>
        have : k = "db" := by simpa [assign, getOwnPropertyNames] using hin
        rw [this]
        exact hdb
      | some src =>
        rcases names_assign src k _ hin with h1 | h1
        · have : k = "db" := by simpa [getOwnPropertyNames] using h1
          rw [this]
          exact hdb
        · exact hk k (by simpa using h1)
    obtain ⟨sv, h5, e5⟩ := createStubInstance_total "MongoClient" m.MongoClient
      (some (assign [("db", .ref h.length)] methodStubs))
      (wireChildren databases (.ref h.length) (returns h2 (.ref h.length) (.ref d))) hkeys
    exact ⟨sv, setProp (resolves (h5 ++ [freshStub]) (.ref h5.length) sv) sv "connect"
      (.ref h5.length), by
      simp only [mongoClient, sinonStub, alloc, ed, e5, bind, Except.bind, pure, Except.pure]⟩

theorem connect_resolves_to_the_client_witness :
    ∃ c h1 p h2,
      mongoClient ⟨["connect", "db", "close"], ["collection"], ["find"]⟩
        (some [("default", .num 1)]) (some [("close", .ref 0)])
        [.stub ⟨.returns (.num 7), [], 0⟩] = .ok (c, h1) ∧
      callMethod h1 c "connect" [] = .ok (p, h2) ∧ resolvedValue h2 p = some c := by
  obtain ⟨c, h1, e⟩ :=
    (connect_resolves_to_the_client ⟨["connect", "db", "close"], ["collection"], ["find"]⟩
      (some [("default", .num 1)]) (some [("close", .ref 0)])
      [.stub ⟨.returns (.num 7), [], 0⟩]).2 (by decide) (by decide) (by decide)
  obtain ⟨p, h2, e1, e2⟩ :=
    (connect_resolves_to_the_client ⟨["connect", "db", "close"], ["collection"], ["find"]⟩
      (some [("default", .num 1)]) (some [("close", .ref 0)])
      [.stub ⟨.returns (.num 7), [], 0⟩]).1 c h1 e []
  exact ⟨c, h1, p, h2, e, e1, e2⟩

/-- C6, evaluated where it fails: a stub that returns 7 is supplied under `connect`, yet the
member `connect` of the built substitute is not that stub and resolves to the substitute,
while the stub itself returns 7; supplied under `db`, the same stub does become the member,
which then returns 7. -/
theorem supplied_connect_is_discarded :
    (∃ c h1 p h2 h3,
      mongoClient ⟨["connect", "db", "close"], ["collection"], ["find"]⟩ none
        (some [("connect", .ref 0)]) [.stub ⟨.returns (.num 7), [], 0⟩] = .ok (c, h1) ∧
      getProp h1 c "connect" ≠ .ref 0 ∧
      callMethod h1 c "connect" [] = .ok (p, h2) ∧ resolvedValue h2 p = some c ∧
      call h1 (.ref 0) [] = .ok (.num 7, h3)) ∧
    (∃ c h1 h2,
      mongoClient ⟨["connect", "db", "close"], ["collection"], ["find"]⟩ none
        (some [("db", .ref 0)]) [.stub ⟨.returns (.num 7), [], 0⟩] = .ok (c, h1) ∧
      getProp h1 c "db" = .ref 0 ∧
      callMethod h1 c "db" [.str "any"] = .ok (.num 7, h2)) :=
  ⟨⟨_, _, _, _, _, rfl, by decide, rfl, rfl, rfl⟩, ⟨_, _, _, rfl, rfl, rfl⟩⟩

/-! ## Totality of the result helpers -/

theorem errored_push_null (r : Readable) : (r.push .null).errored = r.errored := by
  unfold Readable.push
  split
  · rfl
  · simp

theorem errored_foldl_of_errored (items : List Value) :
    ∀ r : Readable, r.errored = true → (items.foldl Readable.push r).errored = true := by
  induction items with
  | nil => intro r hr; exact hr
  | cons x xs ih =>
    intro r hr
    have hp : r.push x = r := by simp [Readable.push, hr]
    rw [List.foldl_cons, hp]
    exact ih r hr

theorem errored_foldl_of_ended (items : List Value) :
    ∀ r : Readable, r.errored = false → r.ended = true →
      (items.foldl Readable.push r).errored = items.any (fun y => decide (y ≠ .null)) := by
  induction items with
  | nil => intro r hr _; simpa using hr
  | cons x xs ih =>
    intro r hr he
    rw [List.foldl_cons]
    by_cases hx : x = .null
    · have hp : r.push x = { r with ended := true } := by simp [Readable.push, hr, hx]
      rw [hp, ih { r with ended := true } hr rfl]
      simp [hx]
    · have hp : r.push x = { r with errored := true } := by simp [Readable.push, hr, hx, he]
      rw [hp, errored_foldl_of_errored xs { r with errored := true } rfl]
      simp [hx]

theorem errored_foldl (items : List Value) :
    ∀ r : Readable, r.errored = false → r.ended = false →
      (items.foldl Readable.push r).errored = pushedAfterEnd items := by
  induction items with
  | nil => intro r hr _; simpa [pushedAfterEnd] using hr
  | cons x xs ih =>
    intro r hr he
    rw [List.foldl_cons]
    by_cases hx : x = .null
    · have hp : r.push x = { r with ended := true } := by simp [Readable.push, hr, hx]
      rw [hp, errored_foldl_of_ended xs { r with ended := true } hr rfl]
      simp [pushedAfterEnd, hx]
    · have hp : r.push x = { r with buffer := r.buffer ++ [x] } := by
        simp [Readable.push, hr, hx, he]
      rw [hp, ih { r with buffer := r.buffer ++ [x] } hr he]
      simp [pushedAfterEnd, hx]

theorem streamErrored_of_normalize {x res : Value} {h h0 : Heap} {items : List Value}
    (hn : normalize x h = .ok (res, h0)) (hi : arrayItems h0 res = .ok items) :
    streamErrored x h = some (pushedAfterEnd items) := by
  obtain ⟨h1, e1, e2, _, _⟩ := documentStream_of_normalize hn hi
  simp only [streamErrored, e1, e2, errored_push_null]
  rw [errored_foldl items newReadable rfl rfl]

theorem pushedAfterEnd_of_no_null (items : List Value) (hn : Value.null ∉ items) :
    pushedAfterEnd items = false := by
  induction items with
  | nil => rfl
  | cons x xs ih =>
    have hx : x ≠ Value.null := fun hx => hn (by simp [hx])
    have hxs : Value.null ∉ xs := fun hxs => hn (by simp [hxs])
    simp [pushedAfterEnd, hx, ih hxs]

theorem constructorOf_of_prebuilt {h : Heap} {x : Value} (hp : Prebuilt h x)
    (ht : truthy x = true) : ∃ c, constructorOf h x = .ok c := by
  cases x with
  | undefined => simp [truthy] at ht
  | null => simp [truthy] at ht
  | nan => simp [truthy] at ht
  | bool b => exact ⟨_, rfl⟩
  | num n => exact ⟨_, rfl⟩
  | str s => exact ⟨_, rfl⟩
  | builtin n => exact ⟨_, rfl⟩
  | ref a =>
    have hl := hp a rfl
    exact ⟨h[a].constructorOf, by simp [constructorOf, List.getElem?_eq_getElem hl]⟩

/-- A truthy value that passes the test on line 60 without being an array has no `forEach`:
`documentStream` raises the type error of line 63. -/
theorem documentStream_not_a_function {h : Heap} {x : Value} (ht : truthy x = true)
    (hc : constructorOf h x = .ok (.builtin "Array"))
    (hno : ∀ a slots, x = .ref a → h[a]? ≠ some (.array (.builtin "Array") slots)) :
    documentStream x h = .error .notAFunction := by
  have hi : arrayItems (h ++ [.readable newReadable]) x = .error .notAFunction := by
    cases x with
    | ref a =>
      cases hg : h[a]? with
      | none => simp [constructorOf, hg] at hc
      | some o =>
        have hlt := lt_of_get hg
        cases o with
        | array ctor slots =>
          have hct : ctor = .builtin "Array" := by
            simpa [constructorOf, hg, HObj.constructorOf] using hc
          subst hct
          exact absurd hg (hno a slots rfl)
        | _ => simp [arrayItems, List.getElem?_append_left hlt, hg]
    | _ => rfl
  simp [documentStream, normalize_ctor_array ht hc, alloc, hi, bind, Except.bind]

/-- C11, as stated, fails twice. The sequence `[1, null, 2]` is a documented input, yet
pushing `2` after the end marker `null` puts the stream of `documentStream` in the error
state: its consumer receives the data event for 1 and then the error, and no end signal.
And for the scalar `{constructor: Array}`, an object that is not a sequence,
`documentStream` raises a type error: the object passes the test of line 60 and has no
`forEach`. -/
theorem documentStream_element_after_null_errors :
    DocumentedInput [.array (.builtin "Array") [some (.num 1), some .null, some (.num 2)]]
      (.ref 0) ∧
    streamErrored (.ref 0)
      [.array (.builtin "Array") [some (.num 1), some .null, some (.num 2)]] = some true ∧
    streamEvents (.ref 0)
      [.array (.builtin "Array") [some (.num 1), some .null, some (.num 2)]] =
      some [Event.data (.num 1), Event.error] ∧
    documentStream (.ref 0) [.object "Object" [("constructor", .builtin "Array")]] =
      .error .notAFunction :=
  ⟨Or.inr (Or.inl ⟨0, [some (.num 1), some .null, some (.num 2)], rfl, rfl⟩), by decide,
    by decide, rfl⟩

/-- C11, amended: `documentArray` is total: for every input that exists (absent, any scalar,
any sequence) the result is built and `toArray()` resolves without error. `documentStream`
returns a stream for every documented input (absent, a sequence whose `constructor` is
`Array`, any other truthy value whose `constructor` is not `Array`); that stream is in no
error state for an absent input and for a scalar, and for a sequence it is in the error state
exactly when some element other than `null` comes after a `null` element. For a truthy value
that is not such a sequence although its `constructor` is `Array`, `documentStream` raises a
type error. -/
theorem result_helpers_total (h : Heap) (x : Value) :
    (Prebuilt h x → ∃ v h2, toArrayValue x h = some (v, h2)) ∧
    (DocumentedInput h x → ∃ r h1, documentStream x h = .ok (r, h1)) ∧
    (∀ a slots, x = .ref a → h[a]? = some (.array (.builtin "Array") slots) →
      streamErrored x h = some (pushedAfterEnd (slots.filterMap id))) ∧
    (DocumentedInput h x →
      (∀ a slots, x = .ref a → h[a]? ≠ some (.array (.builtin "Array") slots)) →
      streamErrored x h = some false) ∧
    (truthy x = true → constructorOf h x = .ok (.builtin "Array") →
      (∀ a slots, x = .ref a → h[a]? ≠ some (.array (.builtin "Array") slots)) →
      documentStream x h = .error .notAFunction) := by
  refine ⟨fun hp => ?_, fun hx => ?_, fun a slots hxa ha => ?_, fun hx hno => ?_,
    fun ht hc hno => documentStream_not_a_function ht hc hno⟩
  · by_cases ht : truthy x = true
    · obtain ⟨c, hc⟩ := constructorOf_of_prebuilt hp ht
      by_cases hca : c = .builtin "Array"
      · subst hca
        obtain ⟨h2, e, _⟩ := toArrayValue_of_normalize (normalize_ctor_array ht hc)
        exact ⟨_, h2, e⟩
      · obtain ⟨h2, e, _⟩ := toArrayValue_of_normalize (normalize_scalar ht hc hca)
        exact ⟨_, h2, e⟩
    · have hf : truthy x = false := by simpa using ht
      have hn : normalize x h = .ok (.ref h.length, h ++ [.array (.builtin "Array") []]) :=
        normalize_falsy hf
      obtain ⟨h2, e, _⟩ := toArrayValue_of_normalize hn
      exact ⟨_, h2, e⟩
  · obtain ⟨res, h0, items, hn, hi⟩ := normalize_documented hx
    obtain ⟨h1, e1, _, _, _⟩ := documentStream_of_normalize hn hi
    exact ⟨_, h1, e1⟩
  · subst hxa
    exact streamErrored_of_normalize (normalize_array ha) (arrayItems_of_get ha)
  · rcases hx with hf | ⟨a, slots, rfl, ha⟩ | ⟨ht, c, hc, hne⟩
    · exact streamErrored_of_normalize (normalize_falsy hf) (arrayItems_alloc_new h _ [])
    · exact absurd ha (hno a slots rfl)
    · rw [streamErrored_of_normalize (normalize_scalar ht hc hne)
        (arrayItems_alloc_new h _ [some x])]
      by_cases hxn : x = .null <;> simp [pushedAfterEnd, hxn]

theorem result_helpers_total_witness :
    (∃ v h2, toArrayValue (.ref 0) [.object "Object" [("constructor", .builtin "Array")]] =
      some (v, h2)) ∧
    (∃ r h1, documentStream (.ref 0)
      [.array (.builtin "Array") [some (.str "doc"), some .null]] = .ok (r, h1)) ∧
    streamErrored (.ref 0) [.array (.builtin "Array") [some (.str "doc"), some .null]] =
      some false ∧
    streamErrored (.str "doc") [] = some false ∧
    documentStream (.ref 0) [.object "Object" [("constructor", .builtin "Array")]] =
      .error .notAFunction :=
  ⟨(result_helpers_total [.object "Object" [("constructor", .builtin "Array")]] (.ref 0)).1
      (fun a ha => by cases ha; decide),
    (result_helpers_total [.array (.builtin "Array") [some (.str "doc"), some .null]]
      (.ref 0)).2.1 (Or.inr (Or.inl ⟨0, [some (.str "doc"), some .null], rfl, rfl⟩)),
    (result_helpers_total [.array (.builtin "Array") [some (.str "doc"), some .null]]
      (.ref 0)).2.2.1 0 [some (.str "doc"), some .null] rfl rfl,
    (result_helpers_total [] (.str "doc")).2.2.2.1
      (Or.inr (Or.inr ⟨rfl, .builtin "String", rfl, by decide⟩))
      (fun a slots hxa => by cases hxa),
    (result_helpers_total [.object "Object" [("constructor", .builtin "Array")]]
      (.ref 0)).2.2.2.2 rfl rfl (fun a slots hxa hg => by cases hxa; cases hg)⟩

end SinonMongo
